import Mathlib

/-!
Verification of the k-body feature transformation engine of the `kcon`
repository (files `kcnn/transformer.py` and `kbody/kbody_transform.py`).

The Python code is shallowly embedded:
* atomic symbols are `String`s; a k-body term is represented both by its
  joined string key (as in `_get_kbody_terms`) and, inside the pipeline,
  by its sorted list of symbols (the code recovers that list from the key
  via `get_atoms_from_kbody_term`);
* numpy float arrays become lists of extended reals (`EReal`), so that the
  `np.inf` distances used for ghost atoms are representable and
  `np.exp` applied to `-inf` yields exactly `0`;
* the combinatorial helpers `itertools.combinations`, `itertools.product`
  and `chain` are embedded as `combinationsL`, `productL` and `List.flatten`,
  with the same enumeration order as the Python iterators.

All definitions come first, all theorems afterwards.
-/

/-! # Definitions -/

/-- Embedding of `itertools.combinations(l, n)`: all `n`-element
subsequences of `l`, enumerated in the same (position-lexicographic)
order as the Python iterator. -/
def combinationsL : ℕ → List α → List (List α)
  | 0, _ => [[]]
  | _ + 1, [] => []
  | n + 1, x :: xs => (combinationsL n xs).map (x :: ·) ++ combinationsL (n + 1) xs

/-- Embedding of `itertools.product(*ls)` for a list of candidate lists,
in the Python order (last factor varies fastest). -/
def productL : List (List α) → List (List α)
  | [] => [[]]
  | l :: ls => l.flatMap (fun x => (productL ls).map (x :: ·))

/-- Embedding of `itertools.combinations(l, 2)` as a list of ordered pairs,
in the Python order: `(l[i], l[j])` for `i < j`, `i` outermost. -/
def listPairs : List α → List (α × α)
  | [] => []
  | x :: xs => xs.map (fun y => (x, y)) ++ listPairs xs

/-- The boolean comparison used to embed the ascending sorts
(`sorted(...)`, `ndarray.sort()`, `np.argsort`) of the source. -/
def leB {β : Type _} [LinearOrder β] (a b : β) : Bool := decide (a ≤ b)

/-- The string key of one combination: `"".join(sorted(c))`. -/
def joinSortedKey (c : List String) : String :=
  String.join (c.mergeSort leB)

/-- Embedding of `_get_kbody_terms(species, k_max)`
(kcnn/transformer.py lines 110-123): the source computes
`sorted(list(set("".join(sorted(c)) for c in combinations(species, k_max))))`. -/
def getKbodyTerms (species : List String) (kMax : ℕ) : List String :=
  (((combinationsL kMax species).map joinSortedKey).dedup).mergeSort leB

/-- The k-body terms with each term kept as its sorted list of symbols
instead of the joined string key.  The pipeline recovers the symbol list
from the key with `get_atoms_from_kbody_term`; keeping the list avoids
re-parsing the key.  Terms are ordered by their joined keys, exactly as
the string version sorts them.  (For one-character symbols, as in all the
concrete scenarios below, the two representations are in bijection.) -/
def getKbodyTermsAsLists (species : List String) (kMax : ℕ) : List (List String) :=
  (((combinationsL kMax species).map (fun c => c.mergeSort leB)).dedup).mergeSort
    (fun a b => leB (String.join a) (String.join b))

/-- The reserved ghost placeholder symbol.
Modelled from the spec: the constant `GHOST` lives in `kcnn/constants.py`,
which is not under `src/`; the spec only requires it to be a reserved
symbol distinct from real element symbols, and the pyykko table of
`kbody_transform.py` carries the radius entry `X`. -/
def GHOST : String := "X"

/-- Embedding of `Transformer._get_num_ghosts(species, many_body_k)`
(kcnn/transformer.py lines 357-373).  The subtraction is over ℤ because
Python integers do not truncate. -/
def getNumGhosts (species : List String) (manyBodyK : ℕ) : Except String ℕ :=
  if species.count GHOST ≠ 0 ∧
      (species.count GHOST > 2 ∨ (manyBodyK : ℤ) - (species.count GHOST : ℤ) ≠ 2) then
    Except.error "The number of ghosts is wrong!"
  else
    Except.ok (species.count GHOST)

/-! ## Selection and mapping builder (`Transformer._get_mapping`, lines 375-443) -/

/-- Embedding of the `atom_index` dictionary built in `_get_mapping`:
the (ordered) list of positions of symbol `e` in `species`. -/
def atomIndexOf (species : List String) (e : String) : List ℕ :=
  (List.range species.length).filter (fun i => species.getD i "" == e)

/-- Embedding of the per-term part of `_get_mapping`: `none` when the term
is discarded (some required symbol occurs more often in the term than in
the species list, i.e. the term is absent from the `mapping`/`selections`
dicts), otherwise the list of k-atom selections.  `t.dedup` is
`sorted(counter.keys())` because every enumerated term is sorted, and
`t.count e` is `counter[e]`. -/
def selectionsFor (species : List String) (t : List String) : Option (List (List ℕ)) :=
  if t.any (fun e => (atomIndexOf species e).length < t.count e) then
    none
  else
    some ((productL (t.dedup.map
      (fun e => combinationsL (t.count e) (atomIndexOf species e)))).map List.flatten)

/-- The number of selections of a term (`mapping[kbody_term].shape[1]`),
`0` for a term absent from the mapping. -/
def kbodySize (species : List String) (t : List String) : ℕ :=
  match selectionsFor species t with
  | none => 0
  | some sels => sels.length

/-! ## Split dimensions and offsets (`Transformer.__init__`, lines 202-259) -/

/-- Embedding of the derived-mode `split_dims` (the `split_dims is None`
branch of `Transformer.__init__`): every excluded k-body term is
represented by a single all-zero row, so each term contributes
`max(size, 1)` rows. -/
def splitDimsDerived (species : List String) (terms : List (List String)) : List ℕ :=
  terms.map (fun t => max (kbodySize species t) 1)

/-- Embedding of the `offsets` list: `[0]` followed by the running value of
`real_dim` after each term (partial sums of the split dimensions). -/
def offsetsOf (dims : List ℕ) : List ℕ :=
  List.scanl (· + ·) 0 dims

/-- Embedding of `real_dim`: the last entry of `offsets`. -/
def realDimOf (dims : List ℕ) : ℕ :=
  (offsetsOf dims).getLastD 0

/-- Embedding of `FixedLenMultiTransformer._get_fixed_split_dims`
(kcnn/transformer.py lines 1219-1229): for each term the product over its
distinct symbols `e` of `C(max_occurs[e], count(e))`. -/
def getFixedSplitDims (maxOccurs : String → ℕ) (terms : List (List String)) : List ℕ :=
  terms.map (fun t => ((t.dedup).map (fun e => Nat.choose (maxOccurs e) (t.count e))).prod)

/-! ## Conditional sorting plan (`_get_conditional_sorting_indices`, lines 445-475) -/

/-- Embedding of `_get_conditional_sorting_indices` for a single term:
the groups of bond-type column indices that occur at least twice.
The source skips terms whose bonds are all unique (and the sorting loop
reads missing terms as the empty list), so the term is embedded directly
as its possibly-empty list of duplicated-bond groups, in first-occurrence
order of the bonds. -/
def condSortGroups (t : List String) : List (List ℕ) :=
  let bonds := listPairs t
  (bonds.dedup).filterMap (fun b =>
    let g := (List.range bonds.length).filter (fun j => bonds.getD j ("", "") == b)
    if 2 ≤ g.length then some g else none)

/-! ## Row sorting machinery (the per-row effect of `_conditionally_sort`,
lines 615-696).  `features[offsets[i]:offsets[i+1], ix]` selects the `ix`
columns of every row of a term block, and `z.sort()` sorts those column
entries of each row in ascending order, writing them back to the same
columns; rows are processed independently and all other columns are left
untouched. -/

/-- Fancy-indexing gather: `row[ix]`. -/
def gatherIdxs (dflt : β) (row : List β) (ix : List ℕ) : List β :=
  ix.map (fun j => row.getD j dflt)

/-- The effect of sorting the `ix`-columns of one row in ascending order
(`z.sort()` followed by the write-back `features[..., ix] = z`). -/
def applySortGroup [LinearOrder β] (dflt : β) (ix : List ℕ) (row : List β) : List β :=
  let vals := (gatherIdxs dflt row ix).mergeSort leB
  (List.range row.length).map (fun j =>
    if j ∈ ix then vals.getD (ix.indexOf j) dflt else row.getD j dflt)

/-- Sequential application of all duplicated-bond groups of a term to one
row, as the `for ix in self._cond_sort.get(kbody_term, [])` loop does. -/
def applyGroups [LinearOrder β] (dflt : β) (groups : List (List ℕ)) (row : List β) : List β :=
  groups.foldl (fun r ix => applySortGroup dflt ix r) row

/-! ## Normalizer (`normalize`, kcnn/transformer.py lines 142-161) -/

/-- Embedding of `np.exp` on extended reals, following IEEE float
semantics: `exp(-inf) = 0` and `exp(inf) = inf`. -/
noncomputable def expE (x : EReal) : EReal :=
  if x = ⊥ then 0
  else if x = ⊤ then ⊤
  else ((Real.exp x.toReal : ℝ) : EReal)

/-- Embedding of `normalize(x, l, order)`:
`np.exp(-x)` when `order == 0`, else `np.exp(-(x / l) ** order)`. -/
noncomputable def normalizeDist (x : EReal) (l : ℝ) (order : ℕ) : EReal :=
  if order = 0 then expE (-x) else expE (-((x / (l : EReal)) ^ order))

/-! ## Geometry provider (`_get_coords`, `_get_interatomic_distances`,
lines 487-554, non-periodic branch) and the pyykko reference lengths
(`_get_pyykko_bonds_matrix`, lines 89-107, called with `factor=1.0`). -/

/-- Euclidean distance of two 3D points (`sklearn pairwise_distances`). -/
noncomputable def euclid (a b : ℝ × ℝ × ℝ) : ℝ :=
  Real.sqrt ((a.1 - b.1) ^ 2 + (a.2.1 - b.2.1) ^ 2 + (a.2.2 - b.2.2) ^ 2)

/-- Entry `(i, j)` of the interatomic distance matrix after the ghost
override: when ghosts are present, every row or column in the trailing
`num_ghosts` positions is set to `+inf`
(`dists[:, -g:] = np.inf; dists[-g:, :] = np.inf`). -/
noncomputable def distWithGhosts (coords : ℕ → ℝ × ℝ × ℝ) (n numGhosts : ℕ)
    (i j : ℕ) : EReal :=
  if 0 < numGhosts ∧ (n - numGhosts ≤ i ∨ n - numGhosts ≤ j) then ⊤
  else ((euclid (coords i) (coords j) : ℝ) : EReal)

/-- Entry `(i, j)` of the pyykko bonds (reference length) matrix with the
kcnn default `factor = 1.0`: the sum of the two per-species radii, looked
up in the radius table `r`. -/
def pyykkoBond (r : String → ℝ) (species : List String) (i j : ℕ) : ℝ :=
  r (species.getD i "") + r (species.getD j "")

/-- The flattened normalized distance vector
`normalize(dists.flatten(), self._normalizers, order)`: entry `m` of the
row-major flattening of the `N`-by-`N` matrix is entry `(m / N, m % N)`. -/
noncomputable def normDists (r : String → ℝ) (species : List String)
    (coords : ℕ → ℝ × ℝ × ℝ) (order : ℕ) (m : ℕ) : EReal :=
  normalizeDist
    (distWithGhosts coords species.length (species.count GHOST)
      (m / species.length) (m % species.length))
    (pyykkoBond r species (m / species.length) (m % species.length))
    order

/-! ## Assignment engine (`_assign`, lines 556-613, feature part).
`features[istart:istop, k] = dists[mapping[k]]` fills, for the term block,
row `i` with the normalized distances of the pairs of selection `i`;
`mapping[k][i]` is the flattened index `vi * natoms + vj` of the `k`-th
pair `(vi, vj)` of selection `i`. -/

/-- The feature row produced for one selection: the normalized distance of
every unordered pair of the selection, through the flattened index
`vi * natoms + vj`. -/
noncomputable def selRow (nd : ℕ → EReal) (natoms : ℕ) (s : List ℕ) : List EReal :=
  (listPairs s).map (fun ab => nd (ab.1 * natoms + ab.2))

/-- The block of feature rows of one term after conditional sorting, in
derived-`split_dims` mode: an absent term occupies a single all-zero row,
a present term one row per selection (its derived dimension is exactly the
selection count), each row conditionally sorted. -/
noncomputable def derivedBlock (species : List String) (nd : ℕ → EReal)
    (t : List String) : List (List EReal) :=
  match selectionsFor species t with
  | none => [List.replicate (Nat.choose t.length 2) (0 : EReal)]
  | some sels => sels.map (fun s => applyGroups 0 (condSortGroups t) (selRow nd species.length s))

/-- The per-term blocks of the feature tensor of `Transformer.transform`
for a non-periodic structure in derived-`split_dims` mode (forces
disabled).  Ghost coordinates never matter because ghost distances are
overridden to `+inf`, so `coords` stands for the ghost-padded coordinate
matrix of `_get_coords`. -/
noncomputable def featureBlocks (r : String → ℝ) (species : List String) (kMax : ℕ)
    (coords : ℕ → ℝ × ℝ × ℝ) (order : ℕ) : List (List (List EReal)) :=
  (getKbodyTermsAsLists species kMax).map
    (derivedBlock species (normDists r species coords order))

/-- The full feature tensor: the concatenation of the per-term blocks
(rows `offsets[i]` to `offsets[i+1]` of the matrix belong to term `i`). -/
noncomputable def transformFeatures (r : String → ℝ) (species : List String) (kMax : ℕ)
    (coords : ℕ → ℝ × ℝ × ℝ) (order : ℕ) : List (List EReal) :=
  (featureBlocks r species kMax coords order).flatten

/-! ## Composition dispatcher (`MultiTransformer`, lines 861-1005) -/

/-- Lookup in the `max_occurs` dictionary (occurrence limits are `ℕ∞`
because undeclared atom types receive `np.inf` in `__init__`). -/
def lookupOccurs (maxOccurs : List (String × ℕ∞)) (e : String) : Option ℕ∞ :=
  (maxOccurs.find? (fun p => p.1 == e)).map Prod.snd

/-- Embedding of `MultiTransformer.accept_species` (lines 993-1005):
`all(counter[e] <= self._max_occurs.get(e, 0) for e in counter)`. -/
def acceptSpecies (maxOccurs : List (String × ℕ∞)) (species : List String) : Bool :=
  species.dedup.all (fun e =>
    decide ((species.count e : ℕ∞) ≤ (lookupOccurs maxOccurs e).getD 0))

/-- Overwrite-or-append update of the `max_occurs` dictionary
(`max_occurs[GHOST] = num_ghosts`). -/
def upsertOccurs (m : List (String × ℕ∞)) (k : String) (v : ℕ∞) : List (String × ℕ∞) :=
  if (lookupOccurs m k).isSome then
    m.map (fun p => if p.1 == k then (p.1, v) else p)
  else
    m ++ [(k, v)]

/-- Embedding of the `max_occurs` construction of
`MultiTransformer.__init__` (lines 886-902): ghosts are added for
`include_all_k` with `k_max >= 3`, the ghost limit is pinned, and every
declared atom type missing from the dictionary is set to `np.inf` (`⊤`). -/
def ghostCountFor (kMax : ℕ) (includeAllK : Bool) : ℕ :=
  if includeAllK ∧ 3 ≤ kMax then kMax - 2 else 0

/-- The atom-type list after ghost padding
(`atom_types = list(atom_types) + [GHOST] * num_ghosts`). -/
def allTypesFor (atomTypes : List String) (numGhosts : ℕ) : List String :=
  if 0 < numGhosts ∧ ¬ GHOST ∈ atomTypes then
    atomTypes ++ List.replicate numGhosts GHOST
  else atomTypes

def buildMaxOccurs (atomTypes : List String) (given : List (String × ℕ∞))
    (kMax : ℕ) (includeAllK : Bool) : List (String × ℕ∞) :=
  let numGhosts := ghostCountFor kMax includeAllK
  let m0 := if 0 < numGhosts then upsertOccurs given GHOST (numGhosts : ℕ∞) else given
  (allTypesFor atomTypes numGhosts).foldl (fun m specie =>
    if (lookupOccurs m specie).isSome then m else m ++ [(specie, (⊤ : ℕ∞))]) m0

/-- The value `C(k_max, 2)` stored as `self._ck2` in `Transformer.__init__`. -/
def ck2Of (kMax : ℕ) : ℕ := Nat.choose kMax 2

/-! ## One-body baseline solve (`_compute_lr_weights`, lines 55-86) -/

/-- Embedding of `_compute_lr_weights(coef, y, num_real_atom_types)`.
`np.linalg.matrix_rank` is idealized as the exact rank of the real
matrix; `np.linalg.pinv` is an external library routine supplied as the
parameter `pinv`.  The full-rank test is `diff == 0` for the Python
integer `diff = num_real_atom_types - rank`, hence the ℤ subtraction.
In the rank-1 branch the first `num_real_atom_types` entries are the
negated mean of `y / coef.sum(axis=1)` and the rest stay 0. -/
noncomputable def computeLrWeights {m n : ℕ}
    (pinv : Matrix (Fin m) (Fin n) ℝ → Matrix (Fin n) (Fin m) ℝ)
    (coef : Matrix (Fin m) (Fin n) ℝ) (y : Fin m → ℝ)
    (numRealAtomTypes : ℕ) : Except String (Fin n → ℝ) :=
  if (numRealAtomTypes : ℤ) - (coef.rank : ℤ) = 0 then
    Except.ok (fun i => -((pinv coef).mulVec y i))
  else if coef.rank = 1 then
    Except.ok (fun i =>
      if (i : ℕ) < numRealAtomTypes then
        -((Finset.univ.sum fun s : Fin m => y s / Finset.univ.sum fun j => coef s j) / m)
      else 0)
  else
    Except.error "Coefficients matrix rank is not supported!"

/-! ## Record writers (`transform_and_save`):
`kbody/kbody_transform.py` lines 293-357 and `kcnn/transformer.py`
lines 1237-1424.  The writers are embedded as explicit state passing over
an abstract stream of per-example outcomes: transforming and serializing
example `i` either yields a record or raises. -/

/-- The streaming loop of `_transform_and_save`: records are appended one
by one; the loop stops at the first failing example.  Returns the records
written up to that point and the first error, if any. -/
def streamWrite {ε ρ : Type _} : List (Except ε ρ) → List ρ × Option ε
  | [] => ([], none)
  | Except.ok r :: rest =>
    (r :: (streamWrite rest).1, (streamWrite rest).2)
  | Except.error e :: _ => ([], some e)

/-- State of the output directory after a run: the content of the data
file and of the JSON sidecar (`none` = the file does not exist). -/
structure FileState (ρ μ : Type _) where
  dataFile : Option (List ρ)
  sidecar : Option μ

/-- Embedding of `kbody_transform.Transformer.transform_and_save`
(kbody/kbody_transform.py lines 335-357): run `_transform_and_save`; on
an exception delete the data file (`if isfile(filename): remove(filename)`,
and the `TFRecordWriter` context has already created the file) and
re-raise; only after a fully successful run write the JSON sidecar. -/
def kbodyTransformAndSave {ε ρ μ : Type _} (samples : List (Except ε ρ))
    (meta : μ) : FileState ρ μ × Option ε :=
  match streamWrite samples with
  | (_, some e) => (⟨none, none⟩, some e)
  | (written, none) => (⟨some written, some meta⟩, none)

/-- Embedding of `FixedLenMultiTransformer.transform_and_save` together
with its `_transform_and_save` (kcnn/transformer.py lines 1237-1424):
there is no exception handler, so a failure propagates with the partially
written data file left in place; `_save_auxiliary_for_file` runs only
after the writer loop returned successfully. -/
def kcnnTransformAndSave {ε ρ μ : Type _} (samples : List (Except ε ρ))
    (meta : μ) : FileState ρ μ × Option ε :=
  match streamWrite samples with
  | (written, some e) => (⟨some written, none⟩, some e)
  | (written, none) => (⟨some written, some meta⟩, none)

/-! ## Force-mode conditional sorting (`_conditionally_sort`, the
`atomic_forces` branch, lines 638-696).  For one term block and one
duplicated-bond group `ix`, the source computes
`orders = np.argsort(z)` on the gathered feature sub-block `z`, adds the
per-row flat offsets, and gathers each of the parallel arrays through the
same flattened `orders`. -/

/-- Stable per-row argsort (`np.argsort` along the last axis, with the
deterministic index tie-break). -/
def argsortRow {β : Type _} [LinearOrder β] (dflt : β) (v : List β) : List ℕ :=
  (List.range v.length).mergeSort (fun i j =>
    decide (v.getD i dflt < v.getD j dflt ∨ (v.getD i dflt = v.getD j dflt ∧ i ≤ j)))

/-- The absolute flattened sorting orders:
`orders += np.tile(np.arange(0, z.size, step), (step, 1)).T` adds
`r * width` to every entry of row `r`. -/
def absOrders {β : Type _} [LinearOrder β] (dflt : β) (z : List (List β)) :
    List (List ℕ) :=
  (List.range z.length).map (fun r =>
    (argsortRow dflt (z.getD r [])).map (fun o => o + r * (z.getD r []).length))

/-- Embedding of the inner helper `cond_sort(part, orders, shape)`:
`part.flatten()[orders].reshape(shape)`. -/
def condSortGather {γ : Type _} (dflt : γ) (part : List (List γ))
    (ordersAbs : List (List ℕ)) : List (List γ) :=
  ordersAbs.map (fun orow => orow.map (fun o => part.flatten.getD o dflt))

/-- Column gather of a matrix: `m[:, ix]`. -/
def gatherCols {γ : Type _} (dflt : γ) (m : List (List γ)) (ix : List ℕ) :
    List (List γ) :=
  m.map (fun row => gatherIdxs dflt row ix)

/-- Column scatter into one row: `row[ix] = vals`. -/
def scatterColsRow {γ : Type _} (dflt : γ) (row : List γ) (ix : List ℕ)
    (vals : List γ) : List γ :=
  (List.range row.length).map (fun j =>
    if j ∈ ix then vals.getD (ix.indexOf j) dflt else row.getD j dflt)

/-- Column scatter into a matrix: `m[:, ix] = vals`. -/
def scatterCols {γ : Type _} (dflt : γ) (m : List (List γ)) (ix : List ℕ)
    (vals : List (List γ)) : List (List γ) :=
  List.zipWith (fun row v => scatterColsRow dflt row ix v) m vals

/-- Sorting one parallel array through the shared `orders`:
`array[:, ix] = cond_sort(array[:, ix], orders, shape)`. -/
def sortThroughOrders {γ : Type _} (dflt : γ) (m : List (List γ)) (ix : List ℕ)
    (ordersAbs : List (List ℕ)) : List (List γ) :=
  scatterCols dflt m ix (condSortGather dflt (gatherCols dflt m ix) ordersAbs)

/-- A column slice of a matrix: `m[:, a:b]`. -/
def sliceCols {γ : Type _} (a b : ℕ) (m : List (List γ)) : List (List γ) :=
  m.map (fun row => (row.drop a).take (b - a))

/-- Writing a column slice back: `m[:, a:a+len] = vals`. -/
def setSliceCols {γ : Type _} (a : ℕ) (m : List (List γ))
    (vals : List (List γ)) : List (List γ) :=
  List.zipWith (fun row v => row.take a ++ v ++ row.drop (a + (v : List γ).length)) m vals

/-- The five parallel arrays of one term block in force mode: features
and covalent radii (width `ck2`), the coordinate deltas (width `6*ck2`),
and the two layers of the index bookkeeping matrix. -/
structure ForceArrays (β : Type _) where
  feat : List (List β)
  cr : List (List β)
  dr : List (List β)
  idxA : List (List ℤ)
  idxB : List (List ℤ)

/-- One axis of the delta-matrix update: slice the `ck2`-wide column
block of the axis out of `dr`, sort its `ix` columns through the shared
orders, and write the block back
(`array = dr[rows, cstart:cstop]; array[:, ix] = cond_sort(...)`). -/
def drAxisStep {β : Type _} (dflt : β) (ck2 : ℕ) (ix : List ℕ)
    (ordersAbs : List (List ℕ)) (dr : List (List β)) (axis : ℕ) : List (List β) :=
  setSliceCols (axis * ck2) dr
    (sortThroughOrders dflt (sliceCols (axis * ck2) (axis * ck2 + ck2) dr) ix ordersAbs)

/-- One pass of the force-mode conditional sorter for a single
duplicated-bond group `ix` of one term block: the argsort orders of the
gathered feature sub-block are computed once and applied, through the
same flattened gather, to the features, the covalent radii, both index
layers, and each of the six delta column blocks. -/
def forceSortGroup {β : Type _} [LinearOrder β] (dflt : β) (ck2 : ℕ)
    (ix : List ℕ) (S : ForceArrays β) : ForceArrays β :=
  let z := gatherCols dflt S.feat ix
  let orders := absOrders dflt z
  { feat := scatterCols dflt S.feat ix (condSortGather dflt z orders)
    cr := sortThroughOrders dflt S.cr ix orders
    dr := (List.range 6).foldl (drAxisStep dflt ck2 ix orders) S.dr
    idxA := sortThroughOrders (-1) S.idxA ix orders
    idxB := sortThroughOrders (-1) S.idxB ix orders }

/-! ## Proof infrastructure for the permutation-invariance analysis.
A selection of a (sorted) term is the concatenation of one combination
per distinct symbol; relabeling two same-species atoms maps every
selection to another selection of the same term, blockwise. -/

/-- The per-symbol block lengths of a sorted term: the count of each
distinct symbol, in the order of `t.dedup`. -/
def blockLens (t : List String) : List ℕ :=
  t.dedup.map (t.count ·)

/-- Splitting a flat list back into blocks of the given lengths. -/
def splitByLens {α : Type _} : List ℕ → List α → List (List α)
  | [], _ => []
  | len :: lens, s => s.take len :: splitByLens lens (s.drop len)

/-- The canonical image of a selection under an atom relabeling `σ`:
apply `σ` inside each per-symbol block and re-sort each block. -/
def canonSel (t : List String) (σ : ℕ → ℕ) (s : List ℕ) : List ℕ :=
  ((splitByLens (blockLens t) s).map (fun b => (b.map σ).mergeSort leB)).flatten

/-- One adjacent transposition of two selection entries sitting at
equal-species positions of the term pattern. -/
def adjSwap (t : List String) (u v : List ℕ) : Prop :=
  ∃ pre x y post, u = pre ++ x :: y :: post ∧ v = pre ++ y :: x :: post ∧
    t.getD pre.length "" = t.getD (pre.length + 1) ""

/-- The pre-sort feature row of an atom list under a pair-value
function (the abstract form of a `selRow`). -/
def rowOf {β : Type _} (F : ℕ → ℕ → β) (w : List ℕ) : List β :=
  (listPairs w).map (fun ab => F ab.1 ab.2)

-- ===================================================================
/-! # Theorems -/
-- ===================================================================

theorem mem_combinationsL {l : List α} {c : List α} {n : ℕ} :
    c ∈ combinationsL n l ↔ c.Sublist l ∧ c.length = n := by
  induction l generalizing c n with
  | nil =>
    cases n with
    | zero =>
      simp only [combinationsL, List.mem_singleton]
      constructor
      · rintro rfl; exact ⟨List.Sublist.refl _, rfl⟩
      · rintro ⟨hs, hl⟩
        exact List.eq_nil_of_length_eq_zero hl
    | succ n =>
      simp only [combinationsL, List.not_mem_nil, false_iff, not_and]
      intro hs hl
      have := hs.length_le
      simp [hl] at this
  | cons x xs ih =>
    cases n with
    | zero =>
      simp only [combinationsL, List.mem_singleton]
      constructor
      · rintro rfl; exact ⟨List.nil_sublist _, rfl⟩
      · rintro ⟨hs, hl⟩
        exact List.eq_nil_of_length_eq_zero hl
    | succ n =>
      simp only [combinationsL, List.mem_append, List.mem_map]
      constructor
      · rintro (⟨c', hc', rfl⟩ | hc)
        · obtain ⟨hs, hl⟩ := ih.mp hc'
          exact ⟨hs.cons₂ x, by simp [hl]⟩
        · obtain ⟨hs, hl⟩ := ih.mp hc
          exact ⟨hs.cons x, hl⟩
      · rintro ⟨hs, hl⟩
        cases hs with
        | cons _ hs' =>
          exact Or.inr (ih.mpr ⟨hs', hl⟩)
        | cons₂ _ hs' =>
          rename_i c'
          exact Or.inl ⟨c', ih.mpr ⟨hs', by simpa using hl⟩, rfl⟩

theorem length_of_mem_combinationsL {l c : List α} {n : ℕ}
    (h : c ∈ combinationsL n l) : c.length = n :=
  (mem_combinationsL.mp h).2

theorem sublist_of_mem_combinationsL {l c : List α} {n : ℕ}
    (h : c ∈ combinationsL n l) : c.Sublist l :=
  (mem_combinationsL.mp h).1

theorem mem_productL {ls : List (List α)} {xs : List α} :
    xs ∈ productL ls ↔ List.Forall₂ (· ∈ ·) xs ls := by
  induction ls generalizing xs with
  | nil =>
    simp only [productL, List.mem_singleton]
    constructor
    · rintro rfl; exact List.Forall₂.nil
    · intro h; cases h; rfl
  | cons l ls ih =>
    simp only [productL, List.mem_flatMap, List.mem_map]
    constructor
    · rintro ⟨x, hx, rest, hrest, rfl⟩
      exact List.Forall₂.cons hx (ih.mp hrest)
    · intro h
      cases h with
      | cons hx hrest =>
        exact ⟨_, hx, _, ih.mpr hrest, rfl⟩

theorem leB_trans {β : Type _} [LinearOrder β] (a b c : β)
    (h₁ : leB a b = true) (h₂ : leB b c = true) : leB a c = true := by
  simp only [leB, decide_eq_true_eq] at *
  exact le_trans h₁ h₂

theorem leB_total {β : Type _} [LinearOrder β] (a b : β) :
    (leB a b || leB b a) = true := by
  simp only [leB, Bool.or_eq_true, decide_eq_true_eq]
  exact le_total a b

theorem sorted_mergeSort_leB {β : Type _} [LinearOrder β] (l : List β) :
    (l.mergeSort leB).Sorted (· ≤ ·) := by
  have h := @List.sorted_mergeSort β (leB : β → β → Bool)
    leB_trans leB_total l
  refine h.imp ?_
  intro a b hab
  simpa [leB] using hab

theorem mergeSort_leB_eq_of_perm {β : Type _} [LinearOrder β] {l₁ l₂ : List β}
    (h : l₁.Perm l₂) : l₁.mergeSort leB = l₂.mergeSort leB := by
  refine List.eq_of_perm_of_sorted ?_ (sorted_mergeSort_leB l₁) (sorted_mergeSort_leB l₂)
  exact (List.mergeSort_perm l₁ leB).trans (h.trans (List.mergeSort_perm l₂ leB).symm)

theorem getKbodyTerms_sorted (species : List String) (kMax : ℕ) :
    (getKbodyTerms species kMax).Sorted (· < ·) := by
  have hle : (getKbodyTerms species kMax).Sorted (· ≤ ·) := sorted_mergeSort_leB _
  have hnd : (getKbodyTerms species kMax).Nodup :=
    (List.mergeSort_perm _ leB).nodup_iff.mpr (List.nodup_dedup _)
  exact hle.lt_of_le hnd

theorem mem_getKbodyTerms (species : List String) (kMax : ℕ) (t : String) :
    t ∈ getKbodyTerms species kMax ↔
      ∃ c, c.Sublist species ∧ c.length = kMax ∧ t = joinSortedKey c := by
  unfold getKbodyTerms
  rw [(List.mergeSort_perm _ leB).mem_iff, List.mem_dedup, List.mem_map]
  constructor
  · rintro ⟨c, hc, rfl⟩
    obtain ⟨hs, hl⟩ := mem_combinationsL.mp hc
    exact ⟨c, hs, hl, rfl⟩
  · rintro ⟨c, hs, hl, rfl⟩
    exact ⟨c, mem_combinationsL.mpr ⟨hs, hl⟩, rfl⟩

/-- C2: for every species list and every k_max, the enumerated kbody_terms
list is strictly sorted in lexicographic order (hence has no duplicates)
and contains exactly the joined sorted size-k_max symbol combinations
drawn from the species list; being a pure function of its inputs, the
enumeration is deterministic. -/
theorem C2_term_enumeration_complete (S : List String) (kMax : ℕ) :
    (getKbodyTerms S kMax).Sorted (· < ·) ∧
      ∀ t : String, t ∈ getKbodyTerms S kMax ↔
        ∃ c, c.Sublist S ∧ c.length = kMax ∧ t = joinSortedKey c :=
  ⟨getKbodyTerms_sorted S kMax, mem_getKbodyTerms S kMax⟩

/-- C7 (amended): constructing a transformer succeeds exactly when the
ghost count is 0, or is equal to k_max - 2 AND is at most 2; every other
ghost count raises the configuration error.  (The claim as frozen omits
the additional `at most 2` restriction enforced by the code.) -/
theorem C7_ghost_count_check (species : List String) (kMax : ℕ) :
    (getNumGhosts species kMax).isOk = true ↔
      species.count GHOST = 0 ∨
        ((species.count GHOST : ℤ) = (kMax : ℤ) - 2 ∧ species.count GHOST ≤ 2) := by
  unfold getNumGhosts
  split
  · rename_i h
    simp only [Except.isOk, Except.toBool, Bool.false_eq_true, false_iff]
    omega
  · rename_i h
    simp only [Except.isOk, Except.toBool, true_iff]
    omega

/-- C7 counterexample: with three ghost placeholders and k_max = 5 the
ghost count equals k_max - 2, so the claim as stated predicts successful
construction, yet `_get_num_ghosts` raises. -/
theorem C7_counterexample :
    ((["X", "X", "X", "C", "C"].count GHOST : ℤ) = (5 : ℤ) - 2) ∧
      (getNumGhosts ["X", "X", "X", "C", "C"] 5).isOk = false := by
  constructor
  · decide
  · decide

theorem lookupOccurs_eq_none_iff (m : List (String × ℕ∞)) (e : String) :
    lookupOccurs m e = none ↔ ∀ p ∈ m, p.1 ≠ e := by
  simp [lookupOccurs, List.find?_eq_none]

theorem lookupOccurs_append_none {m₁ m₂ : List (String × ℕ∞)} {e : String}
    (h₁ : lookupOccurs m₁ e = none) (h₂ : lookupOccurs m₂ e = none) :
    lookupOccurs (m₁ ++ m₂) e = none := by
  rw [lookupOccurs_eq_none_iff] at *
  intro p hp
  rcases List.mem_append.mp hp with h | h
  · exact h₁ p h
  · exact h₂ p h

theorem lookupOccurs_upsert_none {m : List (String × ℕ∞)} {k e : String}
    {v : ℕ∞} (hm : lookupOccurs m e = none) (hke : k ≠ e) :
    lookupOccurs (upsertOccurs m k v) e = none := by
  unfold upsertOccurs
  split
  · rw [lookupOccurs_eq_none_iff] at *
    rintro p hp
    obtain ⟨q, hq, rfl⟩ := List.mem_map.mp hp
    by_cases hqk : q.1 == k
    · have hq1 : q.1 = k := by simpa using hqk
      simpa [hqk, hq1] using hke
    · simpa [hqk] using hm q hq
  · exact lookupOccurs_append_none hm (by simp [lookupOccurs_eq_none_iff, hke])

theorem lookupOccurs_foldl_none {types : List String} {e : String}
    (hty : ∀ s ∈ types, s ≠ e) :
    ∀ {m : List (String × ℕ∞)}, lookupOccurs m e = none →
      lookupOccurs (types.foldl (fun m specie =>
        if (lookupOccurs m specie).isSome then m else m ++ [(specie, (⊤ : ℕ∞))]) m) e
        = none := by
  induction types with
  | nil => intro m hm; exact hm
  | cons s rest ih =>
    intro m hm
    have hs : s ≠ e := hty s (List.mem_cons_self s rest)
    have hrest : ∀ x ∈ rest, x ≠ e := fun x hx => hty x (List.mem_cons_of_mem s hx)
    simp only [List.foldl_cons]
    refine ih hrest ?_
    split
    · exact hm
    · exact lookupOccurs_append_none hm (by simp [lookupOccurs_eq_none_iff, hs])

/-- C10: a species list containing a symbol absent from the configured
`max_occurs` dictionary is always rejected by `accept_species`, because
the occurrence limit of an unknown symbol defaults to 0; in particular an
atom type never declared to the `MultiTransformer` constructor (and not
the ghost placeholder) never becomes a key of the constructed dictionary. -/
theorem C10_accept_unknown_species :
    (∀ (maxOccurs : List (String × ℕ∞)) (species : List String) (e : String),
        e ∈ species → lookupOccurs maxOccurs e = none →
          acceptSpecies maxOccurs species = false) ∧
      (∀ (atomTypes : List String) (given : List (String × ℕ∞)) (kMax : ℕ)
          (includeAllK : Bool) (e : String),
          e ∉ atomTypes → lookupOccurs given e = none → e ≠ GHOST →
            lookupOccurs (buildMaxOccurs atomTypes given kMax includeAllK) e = none) := by
  constructor
  · intro maxOccurs species e he hnone
    rw [acceptSpecies, List.all_eq_false]
    refine ⟨e, List.mem_dedup.mpr he, ?_⟩
    simp only [hnone, Option.getD_none, decide_eq_true_eq]
    intro hle
    have : species.count e = 0 := by
      by_contra hc
      have h1 : (1 : ℕ∞) ≤ (species.count e : ℕ∞) := by
        exact_mod_cast Nat.one_le_iff_ne_zero.mpr hc
      exact absurd (le_trans h1 hle) (by simp)
    exact absurd (List.count_pos_iff.mpr he) (by omega)
  · intro atomTypes given kMax includeAllK e hnotin hnone hghost
    unfold buildMaxOccurs
    refine lookupOccurs_foldl_none ?_ ?_
    · intro s hs
      have hmem : s ∈ atomTypes ∨ s = GHOST := by
        unfold allTypesFor at hs
        split at hs
        · rcases List.mem_append.mp hs with h | h
          · exact Or.inl h
          · exact Or.inr (List.eq_of_mem_replicate h)
        · exact Or.inl hs
      rcases hmem with h | rfl
      · exact fun hse => hnotin (hse ▸ h)
      · exact fun hse => hghost hse.symm
    · split
      · exact lookupOccurs_upsert_none hnone (fun h => hghost h.symm)
      · exact hnone

/-- Witness for C10 at a concrete instance: the species `"N"` is unknown
to a transformer configured only for `"C"`, so it is rejected, and the
constructed dictionary of a `MultiTransformer(["C"])` has no key `"N"`. -/
theorem C10_witness :
    acceptSpecies [("C", (3 : ℕ∞))] ["N"] = false ∧
      lookupOccurs (buildMaxOccurs ["C"] [] 3 true) "N" = none := by
  constructor
  · exact C10_accept_unknown_species.1 [("C", (3 : ℕ∞))] ["N"] "N"
      (by decide) (by decide)
  · exact C10_accept_unknown_species.2 ["C"] [] 3 true "N"
      (by decide) (by decide) (by decide)

/-- C9: the one-body baseline linear solve returns a solution exactly when
the coefficient matrix has full rank (rank equal to the number of real
atom types) or rank 1, and raises the rank error for every other rank: in
the ambiguous case nothing is guessed. -/
theorem C9_baseline_rank_dispatch {m n : ℕ}
    (pinv : Matrix (Fin m) (Fin n) ℝ → Matrix (Fin n) (Fin m) ℝ)
    (coef : Matrix (Fin m) (Fin n) ℝ) (y : Fin m → ℝ) (numRealAtomTypes : ℕ) :
    (computeLrWeights pinv coef y numRealAtomTypes).isOk = true ↔
      (coef.rank = numRealAtomTypes ∨ coef.rank = 1) := by
  unfold computeLrWeights
  split
  · rename_i h
    simp only [Except.isOk, Except.toBool, true_iff]
    omega
  · rename_i h
    split
    · rename_i h2
      simp only [Except.isOk, Except.toBool, true_iff]
      exact Or.inr h2
    · rename_i h2
      simp only [Except.isOk, Except.toBool, Bool.false_eq_true, false_iff]
      omega

theorem streamWrite_none_length {ε ρ : Type _} (samples : List (Except ε ρ))
    (h : (streamWrite samples).2 = none) :
    (streamWrite samples).1.length = samples.length := by
  induction samples with
  | nil => rfl
  | cons s rest ih =>
    cases s with
    | ok r =>
      simp only [streamWrite] at h ⊢
      simp [ih h]
    | error e =>
      simp [streamWrite] at h

/-- C8 (amended): the kbody writer deletes the partially written data file
on any mid-stream failure and writes the sidecar only after a complete
successful run; the kcnn fixed-length writer also writes its sidecar only
after success, but on failure it propagates the error without deleting
the partially written data file. -/
theorem C8_write_failure_contract {ε ρ μ : Type _} (samples : List (Except ε ρ))
    (meta : μ) :
    ((kbodyTransformAndSave samples meta).2.isSome →
        (kbodyTransformAndSave samples meta).1.dataFile = none ∧
          (kbodyTransformAndSave samples meta).1.sidecar = none) ∧
      ((kbodyTransformAndSave samples meta).2 = none →
        ∃ l, l.length = samples.length ∧
          (kbodyTransformAndSave samples meta).1 = ⟨some l, some meta⟩) ∧
      ((kcnnTransformAndSave samples meta).2.isSome →
        (kcnnTransformAndSave samples meta).1.sidecar = none) ∧
      ((kcnnTransformAndSave samples meta).2 = none →
        ∃ l, l.length = samples.length ∧
          (kcnnTransformAndSave samples meta).1 = ⟨some l, some meta⟩) := by
  unfold kbodyTransformAndSave kcnnTransformAndSave
  rcases hsw : streamWrite samples with ⟨written, err⟩
  have hlen : err = none → written.length = samples.length := by
    intro he
    have := streamWrite_none_length samples (by rw [hsw, he])
    rwa [hsw] at this
  cases err with
  | some e => simp
  | none =>
    refine ⟨fun h => by simp at h, fun _ => ⟨written, hlen rfl, rfl⟩,
      fun h => by simp at h, fun _ => ⟨written, hlen rfl, rfl⟩⟩

/-- C8 counterexample: a two-example run through the kcnn fixed-length
writer whose second example fails propagates the error while the data
file is still present and holds the first record, contradicting the
claimed unconditional deletion of the partial file. -/
theorem C8_counterexample :
    (kcnnTransformAndSave [Except.ok (0 : ℕ), Except.error (7 : ℕ)] (0 : ℕ)).2 = some 7 ∧
      (kcnnTransformAndSave [Except.ok (0 : ℕ), Except.error (7 : ℕ)] (0 : ℕ)).1.dataFile
        = some [0] := by
  exact ⟨rfl, rfl⟩

/-- Witness for C8 at concrete runs: a failing one-example kbody run
leaves neither data file nor sidecar, and a successful one-example kcnn
run produces the sidecar with a complete one-record data file. -/
theorem C8_witness :
    ((kbodyTransformAndSave ([Except.error 7] : List (Except ℕ ℕ)) (0 : ℕ)).1.dataFile
        = none ∧
        (kbodyTransformAndSave ([Except.error 7] : List (Except ℕ ℕ)) (0 : ℕ)).1.sidecar
          = none) ∧
      ∃ l : List ℕ, l.length = 1 ∧
        (kcnnTransformAndSave ([Except.ok 5] : List (Except ℕ ℕ)) (0 : ℕ)).1
          = ⟨some l, some 0⟩ :=
  ⟨(C8_write_failure_contract ([Except.error 7] : List (Except ℕ ℕ)) 0).1 rfl,
    (C8_write_failure_contract ([Except.ok 5] : List (Except ℕ ℕ)) 0).2.2.2 rfl⟩

theorem expE_bot : expE ⊥ = 0 := by
  simp [expE]

theorem expE_coe (x : ℝ) : expE (x : EReal) = ((Real.exp x : ℝ) : EReal) := by
  rw [expE, if_neg (EReal.coe_ne_bot x), if_neg (EReal.coe_ne_top x), EReal.toReal_coe]

theorem EReal_top_pow {n : ℕ} (hn : n ≠ 0) : (⊤ : EReal) ^ n = ⊤ := by
  induction n with
  | zero => exact absurd rfl hn
  | succ m ih =>
    cases Nat.eq_zero_or_pos m with
    | inl h => subst h; exact pow_one (⊤ : EReal)
    | inr h =>
      rw [pow_succ, ih (Nat.pos_iff_ne_zero.mp h)]
      exact EReal.top_mul_top

theorem normalizeDist_top (l : ℝ) (order : ℕ) (hl : 0 < l) :
    normalizeDist ⊤ l order = 0 := by
  unfold normalizeDist
  split
  · rw [EReal.neg_top, expE_bot]
  · rename_i h
    have h1 : (⊤ : EReal) / (l : EReal) = ⊤ :=
      EReal.top_div_of_pos_ne_top (by exact_mod_cast hl) (by simp)
    rw [h1, EReal_top_pow h, EReal.neg_top, expE_bot]

theorem flatIdx_div {i j n : ℕ} (hj : j < n) : (i * n + j) / n = i := by
  rw [Nat.mul_comm, Nat.mul_add_div (Nat.zero_lt_of_lt hj) i j,
    Nat.div_eq_of_lt hj, Nat.add_zero]

theorem flatIdx_mod {i j n : ℕ} (hj : j < n) : (i * n + j) % n = j := by
  rw [Nat.mul_comm, Nat.mul_add_mod, Nat.mod_eq_of_lt hj]

/-- C5: the normalizer maps a `+inf` distance to exactly `0` for every
norm order (and positive reference length), and consequently every
normalized-distance entry whose atom pair includes a ghost atom is
exactly `0`: ghost rows and columns of the distance matrix were set to
`+inf` before normalization.  The suffix hypothesis states that the ghost
placeholders occupy exactly the trailing positions of the species list,
which is how every transformer is constructed. -/
theorem C5_ghost_zeroing :
    (∀ (l : ℝ) (order : ℕ), 0 < l → normalizeDist ⊤ l order = 0) ∧
      ∀ (r : String → ℝ) (species : List String) (coords : ℕ → ℝ × ℝ × ℝ)
        (order : ℕ) (i j : ℕ),
        i < species.length → j < species.length →
        (∀ a, a < species.length →
          (species.getD a "" = GHOST ↔ species.length - species.count GHOST ≤ a)) →
        (species.getD i "" = GHOST ∨ species.getD j "" = GHOST) →
        0 < pyykkoBond r species i j →
        normDists r species coords order (i * species.length + j) = 0 := by
  constructor
  · exact fun l order hl => normalizeDist_top l order hl
  · intro r species coords order i j hi hj hg hghost hpos
    have hcount : 0 < species.count GHOST := by
      rcases hghost with h | h
      · have : GHOST ∈ species := by
          rw [← h, List.getD_eq_getElem species "" hi]
          exact List.getElem_mem hi
        exact List.count_pos_iff.mpr this
      · have : GHOST ∈ species := by
          rw [← h, List.getD_eq_getElem species "" hj]
          exact List.getElem_mem hj
        exact List.count_pos_iff.mpr this
    have hsuffix : species.length - species.count GHOST ≤ i ∨
        species.length - species.count GHOST ≤ j := by
      rcases hghost with h | h
      · exact Or.inl ((hg i hi).mp h)
      · exact Or.inr ((hg j hj).mp h)
    unfold normDists
    rw [flatIdx_div hj, flatIdx_mod hj]
    rw [distWithGhosts, if_pos ⟨hcount, hsuffix⟩]
    exact normalizeDist_top _ order hpos

/-- Witness for C5: in the two-atom structure `[C, X]` with unit radii the
flattened entry of the pair `(0, 1)` (a real atom and the ghost) is
exactly `0` for norm order 1. -/
theorem C5_witness :
    normDists (fun _ => 1) ["C", "X"] (fun _ => (0, 0, 0)) 1 (0 * 2 + 1) = 0 :=
  C5_ghost_zeroing.2 (fun _ => 1) ["C", "X"] (fun _ => (0, 0, 0)) 1 0 1
    (by decide) (by decide) (by decide) (by decide)
    (by norm_num [pyykkoBond])

theorem scanl_add_getLastD (a : ℕ) (l : List ℕ) :
    (List.scanl (· + ·) a l).getLastD 0 = a + l.sum := by
  induction l generalizing a with
  | nil => simp [List.scanl]
  | cons x xs ih =>
    rw [List.scanl_cons, List.singleton_append, List.getLastD_cons]
    have hne : List.scanl (· + ·) (a + x) xs ≠ [] := by
      intro h
      have := List.length_scanl (f := (· + ·)) (a + x) xs
      rw [h] at this
      simp at this
    have key := ih (a + x)
    rw [List.getLastD_eq_getLast?, List.getLast?_eq_getLast _ hne, Option.getD_some] at key
    rw [List.getLastD_eq_getLast?, List.getLast?_eq_getLast _ hne, Option.getD_some, key,
      List.sum_cons]
    ring

theorem realDimOf_eq_sum (dims : List ℕ) : realDimOf dims = dims.sum := by
  rw [realDimOf, offsetsOf]
  simpa using scanl_add_getLastD 0 dims

/-- C6: in both split-dimension modes the list has one entry per k-body
term, real_dim (the final offset) equals the sum of the split dimensions,
a term absent from the mapping has derived dimension 1 and its block is a
single all-zero row, and in fixed mode every term whose per-symbol counts
stay within the configured maxima occupies at least one row. -/
theorem C6_split_dims_shape :
    (∀ (species : List String) (terms : List (List String)),
        (splitDimsDerived species terms).length = terms.length) ∧
      (∀ (maxOccurs : String → ℕ) (terms : List (List String)),
        (getFixedSplitDims maxOccurs terms).length = terms.length) ∧
      (∀ dims : List ℕ, realDimOf dims = dims.sum) ∧
      (∀ (species : List String) (nd : ℕ → EReal) (t : List String),
        selectionsFor species t = none →
          max (kbodySize species t) 1 = 1 ∧
            derivedBlock species nd t = [List.replicate (Nat.choose t.length 2) 0]) ∧
      (∀ (maxOccurs : String → ℕ) (terms : List (List String)),
        List.Forall₂ (fun t d => (∀ e ∈ t, t.count e ≤ maxOccurs e) → 1 ≤ d)
          terms (getFixedSplitDims maxOccurs terms)) := by
  refine ⟨?_, ?_, realDimOf_eq_sum, ?_, ?_⟩
  · intro species terms
    simp [splitDimsDerived]
  · intro maxOccurs terms
    simp [getFixedSplitDims]
  · intro species nd t hnone
    constructor
    · simp [kbodySize, hnone]
    · rw [derivedBlock, hnone]
  · intro maxOccurs terms
    rw [getFixedSplitDims, List.forall₂_map_right_iff, List.forall₂_same]
    intro t _ hcount
    have hpos : 0 < ((t.dedup).map
        (fun e => Nat.choose (maxOccurs e) (t.count e))).prod := by
      refine List.prod_pos ?_
      intro a ha
      obtain ⟨e, he, rfl⟩ := List.mem_map.mp ha
      exact Nat.choose_pos (hcount e (List.mem_dedup.mp he))
    exact hpos

/-- Witness for C6: the term `BB` is absent from the mapping of the
one-atom species list `[A]`, so its derived dimension is 1 and its block
is one zero row; real_dim of the split dimensions `[1, 2]` is 3. -/
theorem C6_witness :
    (max (kbodySize ["A"] ["B", "B"]) 1 = 1 ∧
        derivedBlock ["A"] (fun _ => 0) ["B", "B"]
          = [List.replicate (Nat.choose 2 2) 0]) ∧
      realDimOf [1, 2] = [1, 2].sum :=
  ⟨C6_split_dims_shape.2.2.2.1 ["A"] (fun _ => 0) ["B", "B"] (by decide),
    C6_split_dims_shape.2.2.1 [1, 2]⟩

theorem normalizeDist_coe_one (d : ℝ) :
    normalizeDist (d : EReal) 1 1 = ((Real.exp (-d) : ℝ) : EReal) := by
  rw [normalizeDist, if_neg one_ne_zero, ← EReal.coe_div, div_one,
    pow_one, ← EReal.coe_neg, expE_coe]

unseal List.merge List.mergeSort String.ltb

/-- C1: the concrete scenario.  For species `[A, A, B]` with `k_max = 2`,
radius `1/2` for every symbol (so every pair reference length is 1), norm
order 1 and coordinates `A0 = (0,0,0)`, `A1 = (1,0,0)`, `B = (0,1,0)`:
the enumerated terms are `AA` and `AB`; `AA` has the single selection
`[0, 1]` and `AB` the selections `[0, 2]` and `[1, 2]`;
`split_dims = [1, 2]`, `real_dim = 3`, `ck2 = 1`; neither term has any
conditional-sorting group; and the feature tensor is exactly
`[[exp(-1)], [exp(-1)], [exp(-sqrt 2)]]`. -/
theorem C1_concrete_scenario :
    getKbodyTerms ["A", "A", "B"] 2 = ["AA", "AB"] ∧
      selectionsFor ["A", "A", "B"] ["A", "A"] = some [[0, 1]] ∧
      selectionsFor ["A", "A", "B"] ["A", "B"] = some [[0, 2], [1, 2]] ∧
      splitDimsDerived ["A", "A", "B"] (getKbodyTermsAsLists ["A", "A", "B"] 2)
        = [1, 2] ∧
      realDimOf (splitDimsDerived ["A", "A", "B"]
        (getKbodyTermsAsLists ["A", "A", "B"] 2)) = 3 ∧
      ck2Of 2 = 1 ∧
      condSortGroups ["A", "A"] = [] ∧
      condSortGroups ["A", "B"] = [] ∧
      transformFeatures (fun _ => 1 / 2) ["A", "A", "B"] 2
          (fun n => if n = 0 then (0, 0, 0) else if n = 1 then (1, 0, 0) else (0, 1, 0)) 1
        = [[((Real.exp (-1) : ℝ) : EReal)], [((Real.exp (-1) : ℝ) : EReal)],
            [((Real.exp (-(Real.sqrt 2)) : ℝ) : EReal)]] := by
  refine ⟨by decide, by decide, by decide, by decide, by decide, by decide,
    by decide, by decide, ?_⟩
  set S := (["A", "A", "B"] : List String) with hS
  set c : ℕ → ℝ × ℝ × ℝ :=
    (fun n => if n = 0 then (0, 0, 0) else if n = 1 then (1, 0, 0) else (0, 1, 0))
    with hc
  set r : String → ℝ := (fun _ => 1 / 2) with hr
  have hterms : getKbodyTermsAsLists S 2 = [["A", "A"], ["A", "B"]] := by decide
  have hsel1 : selectionsFor S ["A", "A"] = some [[0, 1]] := by decide
  have hsel2 : selectionsFor S ["A", "B"] = some [[0, 2], [1, 2]] := by decide
  have hg1 : condSortGroups ["A", "A"] = [] := by decide
  have hg2 : condSortGroups ["A", "B"] = [] := by decide
  have hcount : S.count GHOST = 0 := by decide
  have hlen : S.length = 3 := by decide
  have hbond : ∀ i j : ℕ, pyykkoBond r S i j = 1 := by
    intro i j
    rw [pyykkoBond, hr]
    norm_num
  have hdist : ∀ i j : ℕ, distWithGhosts c 3 0 i j
      = ((euclid (c i) (c j) : ℝ) : EReal) := by
    intro i j
    rw [distWithGhosts, if_neg]
    rintro ⟨h, -⟩
    exact absurd h (by norm_num)
  have key : ∀ a b : ℕ, b < 3 →
      normDists r S c 1 (a * 3 + b)
        = ((Real.exp (-(euclid (c a) (c b))) : ℝ) : EReal) := by
    intro a b hb
    rw [normDists, hbond, hcount, hlen, flatIdx_div hb, flatIdx_mod hb, hdist,
      normalizeDist_coe_one]
  have hd01 : euclid (c 0) (c 1) = 1 := by
    rw [hc]
    norm_num [euclid]
  have hd02 : euclid (c 0) (c 2) = 1 := by
    rw [hc]
    norm_num [euclid]
  have hd12 : euclid (c 1) (c 2) = Real.sqrt 2 := by
    rw [hc]
    norm_num [euclid]
  rw [transformFeatures, featureBlocks, hterms]
  simp only [List.map_cons, List.map_nil]
  rw [derivedBlock, derivedBlock, hsel1, hsel2]
  simp only [hg1, hg2, applyGroups, List.foldl_nil, List.map_cons, List.map_nil]
  simp only [selRow, listPairs, List.map_nil, List.map_cons, List.map_append,
    List.nil_append, hlen]
  rw [key 0 1 (by norm_num), key 0 2 (by norm_num), key 1 2 (by norm_num),
    hd01, hd02, hd12]
  simp [List.flatten]

theorem getD_map_range {γ : Type _} {f : ℕ → γ} {n j : ℕ} (hj : j < n) (d : γ) :
    ((List.range n).map f).getD j d = f j := by
  have hlen : j < ((List.range n).map f).length := by
    simpa using hj
  rw [List.getD_eq_getElem _ _ hlen, List.getElem_map]
  congr 1
  exact List.getElem_range j (by simpa using hj)

theorem getD_map_of_lt {γ δ : Type _} {f : γ → δ} {l : List γ} {r : ℕ}
    (hr : r < l.length) (d : γ) (d' : δ) :
    (l.map f).getD r d' = f (l.getD r d) := by
  have hlen : r < (l.map f).length := by simpa using hr
  rw [List.getD_eq_getElem _ _ hlen, List.getElem_map, List.getD_eq_getElem _ _ hr]

theorem getD_zipWith_of_lt {γ δ σ : Type _} {f : γ → δ → σ} {l₁ : List γ}
    {l₂ : List δ} {r : ℕ} (h₁ : r < l₁.length) (h₂ : r < l₂.length)
    (d₁ : γ) (d₂ : δ) (d : σ) :
    (List.zipWith f l₁ l₂).getD r d = f (l₁.getD r d₁) (l₂.getD r d₂) := by
  have hlen : r < (List.zipWith f l₁ l₂).length := by
    rw [List.length_zipWith]
    exact lt_min h₁ h₂
  rw [List.getD_eq_getElem _ _ hlen, List.getElem_zipWith,
    List.getD_eq_getElem _ _ h₁, List.getD_eq_getElem _ _ h₂]

theorem length_scatterColsRow {γ : Type _} (dflt : γ) (row : List γ) (ix : List ℕ)
    (vals : List γ) : (scatterColsRow dflt row ix vals).length = row.length := by
  simp [scatterColsRow]

theorem scatterColsRow_getD_mem {γ : Type _} (dflt : γ) (row : List γ) {ix : List ℕ}
    (vals : List γ) {j : ℕ} (hj : j < row.length) (hmem : j ∈ ix) :
    (scatterColsRow dflt row ix vals).getD j dflt = vals.getD (ix.indexOf j) dflt := by
  rw [scatterColsRow, getD_map_range hj, if_pos hmem]

theorem scatterColsRow_getD_not_mem {γ : Type _} (dflt : γ) (row : List γ)
    {ix : List ℕ} (vals : List γ) {j : ℕ} (hj : j < row.length) (hmem : j ∉ ix) :
    (scatterColsRow dflt row ix vals).getD j dflt = row.getD j dflt := by
  rw [scatterColsRow, getD_map_range hj, if_neg hmem]

theorem gather_scatterColsRow {γ : Type _} (dflt : γ) {row vals : List γ}
    {ix : List ℕ} (hnodup : ix.Nodup) (hix : ∀ j ∈ ix, j < row.length)
    (hv : vals.length = ix.length) :
    gatherIdxs dflt (scatterColsRow dflt row ix vals) ix = vals := by
  refine List.ext_getElem ?_ ?_
  · simp [gatherIdxs, hv]
  · intro p h₁ h₂
    have hp : p < ix.length := by simpa [gatherIdxs] using h₁
    simp only [gatherIdxs]
    rw [List.getElem_map]
    have hmem : ix[p] ∈ ix := List.getElem_mem hp
    rw [scatterColsRow_getD_mem dflt row vals (hix _ hmem) hmem,
      List.indexOf_getElem hnodup p hp, List.getD_eq_getElem _ _ h₂]

theorem getD_mem_of_lt {γ : Type _} {l : List γ} {r : ℕ} (hr : r < l.length)
    (d : γ) : l.getD r d ∈ l := by
  rw [List.getD_eq_getElem _ _ hr]
  exact List.getElem_mem hr

theorem flatten_getD_uniform {γ : Type _} {part : List (List γ)} {g : ℕ}
    (hg : ∀ row ∈ part, row.length = g) {rIdx o : ℕ} (hr : rIdx < part.length)
    (ho : o < g) (d : γ) :
    part.flatten.getD (o + rIdx * g) d = (part.getD rIdx []).getD o d := by
  induction part generalizing rIdx with
  | nil => simp at hr
  | cons row rest ih =>
    have hrowlen : row.length = g := hg row (List.mem_cons_self row rest)
    cases rIdx with
    | zero =>
      rw [List.flatten_cons, Nat.zero_mul, Nat.add_zero, List.getD_cons_zero,
        List.getD_append row rest.flatten d o (by rw [hrowlen]; exact ho)]
    | succ rPrev =>
      rw [List.flatten_cons, List.getD_cons_succ]
      have harith : o + (rPrev + 1) * g = row.length + (o + rPrev * g) := by
        rw [hrowlen]
        ring
      rw [harith, List.getD_append_right row rest.flatten d _ (Nat.le_add_right _ _),
        Nat.add_sub_cancel_left]
      exact ih (fun r hrm => hg r (List.mem_cons_of_mem row hrm))
        (Nat.lt_of_succ_lt_succ hr)

theorem argsortRow_perm {β : Type _} [LinearOrder β] (dflt : β) (v : List β) :
    (argsortRow dflt v).Perm (List.range v.length) :=
  List.mergeSort_perm _ _

theorem argsortRow_length {β : Type _} [LinearOrder β] (dflt : β) (v : List β) :
    (argsortRow dflt v).length = v.length := by
  have := (argsortRow_perm dflt v).length_eq
  simpa using this

theorem argsortRow_mem_lt {β : Type _} [LinearOrder β] {dflt : β} {v : List β}
    {o : ℕ} (ho : o ∈ argsortRow dflt v) : o < v.length := by
  have := (argsortRow_perm dflt v).mem_iff.mp ho
  simpa using this

theorem absOrders_length {β : Type _} [LinearOrder β] (dflt : β)
    (z : List (List β)) : (absOrders dflt z).length = z.length := by
  simp [absOrders]

theorem absOrders_getD {β : Type _} [LinearOrder β] (dflt : β) (z : List (List β))
    {rIdx : ℕ} (hr : rIdx < z.length) :
    (absOrders dflt z).getD rIdx []
      = (argsortRow dflt (z.getD rIdx [])).map
          (fun o => o + rIdx * (z.getD rIdx []).length) := by
  rw [absOrders, getD_map_range hr]

theorem condSortGather_row {β γ : Type _} [LinearOrder β] (dfltB : β) (dflt : γ)
    {z : List (List β)} (part : List (List γ)) {g : ℕ}
    (hz : ∀ row ∈ z, row.length = g) (hp : ∀ row ∈ part, row.length = g)
    (hlen : part.length = z.length) {rIdx : ℕ} (hr : rIdx < z.length) :
    (condSortGather dflt part (absOrders dfltB z)).getD rIdx []
      = (argsortRow dfltB (z.getD rIdx [])).map
          (fun o => (part.getD rIdx []).getD o dflt) := by
  have hrlen : rIdx < (absOrders dfltB z).length := by
    rw [absOrders_length]
    exact hr
  rw [condSortGather, getD_map_of_lt hrlen [] _, absOrders_getD dfltB z hr,
    List.map_map]
  refine List.map_congr_left ?_
  intro o ho
  have hzrow : (z.getD rIdx []).length = g := hz _ (getD_mem_of_lt hr [])
  have hog : o < g := by
    rw [← hzrow]
    exact argsortRow_mem_lt ho
  show part.flatten.getD (o + rIdx * (z.getD rIdx []).length) dflt
    = (part.getD rIdx []).getD o dflt
  rw [hzrow]
  exact flatten_getD_uniform hp (by rw [hlen]; exact hr) hog dflt

theorem gatherCols_getD {γ : Type _} (dflt : γ) {m : List (List γ)} (ix : List ℕ)
    {rIdx : ℕ} (hr : rIdx < m.length) :
    (gatherCols dflt m ix).getD rIdx [] = gatherIdxs dflt (m.getD rIdx []) ix := by
  rw [gatherCols, getD_map_of_lt hr [] _]

theorem condSortGather_length {γ : Type _} (dflt : γ) (part : List (List γ))
    (ordersAbs : List (List ℕ)) :
    (condSortGather dflt part ordersAbs).length = ordersAbs.length := by
  simp [condSortGather]

theorem gatherCols_length {γ : Type _} (dflt : γ) (m : List (List γ))
    (ix : List ℕ) : (gatherCols dflt m ix).length = m.length := by
  simp [gatherCols]

theorem sortThroughOrders_row {β γ : Type _} [LinearOrder β] (dfltB : β) (dflt : γ)
    (z : List (List β)) (m : List (List γ)) (ix : List ℕ) (w : ℕ)
    (hznum : z.length = m.length)
    (hz : ∀ row ∈ z, row.length = ix.length)
    (hm : ∀ row ∈ m, row.length = w)
    (hix : ∀ j ∈ ix, j < w) (hnodup : ix.Nodup)
    {rIdx : ℕ} (hr : rIdx < m.length) :
    gatherIdxs dflt ((sortThroughOrders dflt m ix (absOrders dfltB z)).getD rIdx []) ix
      = (argsortRow dfltB (z.getD rIdx [])).map
          (fun o => (gatherIdxs dflt (m.getD rIdx []) ix).getD o dflt) := by
  have hrz : rIdx < z.length := by rw [hznum]; exact hr
  have hp : ∀ row ∈ gatherCols dflt m ix, row.length = ix.length := by
    intro row hrow
    obtain ⟨row0, hrow0, rfl⟩ := List.mem_map.mp hrow
    simp [gatherIdxs]
  have hplen : (gatherCols dflt m ix).length = z.length := by
    rw [gatherCols_length, hznum]
  have hvals := condSortGather_row dfltB dflt
    (gatherCols dflt m ix) hz hp hplen hrz
  rw [sortThroughOrders, scatterCols,
    getD_zipWith_of_lt hr
      (by rw [condSortGather_length, absOrders_length dfltB z, hznum]
          exact hr)
      [] [] []]
  rw [gather_scatterColsRow dflt hnodup
      (fun j hj => by rw [hm _ (getD_mem_of_lt hr [])]; exact hix j hj)
      ?_]
  · rw [hvals, gatherCols_getD dflt ix (by rw [← hznum]; exact hrz)]
  · rw [hvals]
    simp only [List.length_map]
    rw [argsortRow_length, hz _ (getD_mem_of_lt hrz [])]

theorem setSliceRow_length {γ : Type _} {row v : List γ} {a : ℕ}
    (hle : a + v.length ≤ row.length) :
    (row.take a ++ v ++ row.drop (a + v.length)).length = row.length := by
  simp only [List.length_append, List.length_take, List.length_drop]
  omega

theorem setSliceRow_getD {γ : Type _} {row v : List γ} {a : ℕ}
    (hle : a + v.length ≤ row.length) {j : ℕ} (hj : j < row.length) (d : γ) :
    (row.take a ++ v ++ row.drop (a + v.length)).getD j d
      = if j < a then row.getD j d
        else if j < a + v.length then v.getD (j - a) d
        else row.getD j d := by
  have hta : (row.take a).length = a := by
    rw [List.length_take]
    omega
  have htv : (row.take a ++ v).length = a + v.length := by
    rw [List.length_append, hta]
  by_cases h1 : j < a
  · rw [if_pos h1,
      List.getD_append _ _ d j (by rw [htv]; omega),
      List.getD_append _ _ d j (by rw [hta]; exact h1)]
    have hjt : j < (row.take a).length := by rw [hta]; exact h1
    rw [List.getD_eq_getElem _ _ hjt, List.getD_eq_getElem _ _ hj,
      List.getElem_take]
  · rw [if_neg h1]
    by_cases h2 : j < a + v.length
    · rw [if_pos h2,
        List.getD_append _ _ d j (by rw [htv]; exact h2),
        List.getD_append_right _ _ d j (by rw [hta]; omega), hta]
    · rw [if_neg h2,
        List.getD_append_right _ _ d j (by rw [htv]; omega), htv]
      have hlt : j - (a + v.length) < (row.drop (a + v.length)).length := by
        rw [List.length_drop]
        omega
      rw [List.getD_eq_getElem _ _ hlt, List.getElem_drop,
        List.getD_eq_getElem _ _ hj]
      congr 1
      omega

theorem sliceRow_getD {γ : Type _} (row : List γ) (a : ℕ) {len o : ℕ}
    (ho : o < len)
    (hle : a + len ≤ row.length) (d : γ) :
    ((row.drop a).take len).getD o d = row.getD (a + o) d := by
  have h1 : o < ((row.drop a).take len).length := by
    simp only [List.length_take, List.length_drop]
    omega
  rw [List.getD_eq_getElem _ _ h1, List.getElem_take, List.getElem_drop,
    List.getD_eq_getElem _ _ (by omega)]

theorem sliceCols_getD {γ : Type _} {m : List (List γ)} {a b r : ℕ}
    (hr : r < m.length) :
    (sliceCols a b m).getD r [] = ((m.getD r []).drop a).take (b - a) := by
  rw [sliceCols, getD_map_of_lt hr [] _]

theorem sliceCols_length {γ : Type _} (a b : ℕ) (m : List (List γ)) :
    (sliceCols a b m).length = m.length := by
  simp [sliceCols]

theorem sortThroughOrders_length {γ : Type _} (dflt : γ) (m : List (List γ))
    (ix : List ℕ) (ordersAbs : List (List ℕ)) :
    (sortThroughOrders dflt m ix ordersAbs).length
      = min m.length ordersAbs.length := by
  rw [sortThroughOrders, scatterCols, List.length_zipWith, condSortGather_length]

theorem sortThroughOrders_getD_length {γ : Type _} (dflt : γ)
    {m : List (List γ)} (ix : List ℕ) {ordersAbs : List (List ℕ)} {r : ℕ}
    (hr : r < m.length) (hor : r < ordersAbs.length) :
    ((sortThroughOrders dflt m ix ordersAbs).getD r []).length
      = (m.getD r []).length := by
  rw [sortThroughOrders, scatterCols,
    getD_zipWith_of_lt hr (by rw [condSortGather_length]; exact hor) [] [] [],
    length_scatterColsRow]

theorem setSliceCols_length {γ : Type _} (a : ℕ) (m vals : List (List γ)) :
    (setSliceCols a m vals).length = min m.length vals.length := by
  rw [setSliceCols, List.length_zipWith]

theorem setSliceCols_getD {γ : Type _} {a : ℕ} {m vals : List (List γ)} {r : ℕ}
    (hr : r < m.length) (hv : r < vals.length) :
    (setSliceCols a m vals).getD r []
      = (m.getD r []).take a ++ vals.getD r []
          ++ (m.getD r []).drop (a + (vals.getD r []).length) := by
  rw [setSliceCols, getD_zipWith_of_lt hr hv [] [] []]

theorem sliceRow_setSliceRow_same {γ : Type _} {row v : List γ} {len : ℕ}
    {a : ℕ} (hv : v.length = len) (hle : a + len ≤ row.length) :
    ((row.take a ++ v ++ row.drop (a + v.length)).drop a).take len = v := by
  have hsetlen : (row.take a ++ v ++ row.drop (a + v.length)).length = row.length :=
    setSliceRow_length (by omega)
  refine List.ext_getElem ?_ ?_
  · simp only [List.length_take, List.length_drop, hsetlen]
    omega
  · intro o h1 h2
    have ho : o < len := by
      simp only [List.length_take, List.length_drop, hsetlen] at h1
      omega
    have hvo : o < v.length := by omega
    have key := sliceRow_getD (row.take a ++ v ++ row.drop (a + v.length))
      a ho (by rw [hsetlen]; omega) v[o]
    rw [setSliceRow_getD (by omega) (by omega) v[o], if_neg (by omega),
      if_pos (by omega), Nat.add_sub_cancel_left] at key
    rw [List.getD_eq_getElem _ _ h1, List.getD_eq_getElem _ _ hvo] at key
    exact key

theorem sliceRow_setSliceRow_disjoint {γ : Type _} {row v : List γ}
    {a b len : ℕ} (hle : a + v.length ≤ row.length)
    (hdisj : b + len ≤ a ∨ a + v.length ≤ b) (hble : b + len ≤ row.length)
    (d : γ) :
    ((row.take a ++ v ++ row.drop (a + v.length)).drop b).take len
      = (row.drop b).take len := by
  have hsetlen : (row.take a ++ v ++ row.drop (a + v.length)).length = row.length :=
    setSliceRow_length hle
  refine List.ext_getElem ?_ ?_
  · simp only [List.length_take, List.length_drop, hsetlen]
  · intro o h1 h2
    have ho : o < len := by
      simp only [List.length_take, List.length_drop, hsetlen] at h1
      omega
    have key := sliceRow_getD (row.take a ++ v ++ row.drop (a + v.length))
      b ho (by rw [hsetlen]; omega) d
    have key2 := sliceRow_getD row b ho (by omega) d
    rw [setSliceRow_getD hle (by omega) d] at key
    have hif : (if b + o < a then row.getD (b + o) d
        else if b + o < a + v.length then v.getD (b + o - a) d
        else row.getD (b + o) d) = row.getD (b + o) d := by
      rcases hdisj with h | h
      · rw [if_pos (by omega)]
      · rw [if_neg (by omega), if_neg (by omega)]
    rw [hif, ← key2] at key
    rw [List.getD_eq_getElem _ _ h1, List.getD_eq_getElem _ _ h2] at key
    exact key

theorem drAxisStep_length {β : Type _} (dflt : β) (ck2 : ℕ) (ix : List ℕ)
    (ordersAbs : List (List ℕ)) (dr : List (List β)) (axis : ℕ)
    (hor : ordersAbs.length = dr.length) :
    (drAxisStep dflt ck2 ix ordersAbs dr axis).length = dr.length := by
  rw [drAxisStep, setSliceCols_length, sortThroughOrders_length, sliceCols_length,
    hor]
  simp

theorem drAxisStep_vals_getD_length {β : Type _} (dflt : β) (ck2 : ℕ)
    (ix : List ℕ) {ordersAbs : List (List ℕ)} {dr : List (List β)} {axis r : ℕ}
    (hr : r < dr.length) (hor : ordersAbs.length = dr.length)
    (hwr : axis * ck2 + ck2 ≤ (dr.getD r []).length) :
    ((sortThroughOrders dflt (sliceCols (axis * ck2) (axis * ck2 + ck2) dr) ix
        ordersAbs).getD r []).length = ck2 := by
  rw [sortThroughOrders_getD_length dflt ix
      (by rw [sliceCols_length]; exact hr) (by rw [hor]; exact hr),
    sliceCols_getD hr]
  simp only [List.length_take, List.length_drop]
  omega

theorem drAxisStep_getD_length {β : Type _} (dflt : β) (ck2 : ℕ) (ix : List ℕ)
    {ordersAbs : List (List ℕ)} {dr : List (List β)} {axis r : ℕ}
    (hr : r < dr.length) (hor : ordersAbs.length = dr.length)
    (hwr : axis * ck2 + ck2 ≤ (dr.getD r []).length) :
    ((drAxisStep dflt ck2 ix ordersAbs dr axis).getD r []).length
      = (dr.getD r []).length := by
  have hv : r < (sortThroughOrders dflt
      (sliceCols (axis * ck2) (axis * ck2 + ck2) dr) ix ordersAbs).length := by
    rw [sortThroughOrders_length, sliceCols_length, hor]
    simpa using hr
  rw [drAxisStep, setSliceCols_getD hr hv, setSliceRow_length]
  rw [drAxisStep_vals_getD_length dflt ck2 ix hr hor hwr]
  omega

theorem sliceCols_drAxisStep_same {β : Type _} (dflt : β) (ck2 : ℕ) (ix : List ℕ)
    {ordersAbs : List (List ℕ)} {dr : List (List β)} {axis : ℕ}
    (hor : ordersAbs.length = dr.length)
    (hw : ∀ r, r < dr.length → axis * ck2 + ck2 ≤ (dr.getD r []).length) :
    sliceCols (axis * ck2) (axis * ck2 + ck2)
        (drAxisStep dflt ck2 ix ordersAbs dr axis)
      = sortThroughOrders dflt (sliceCols (axis * ck2) (axis * ck2 + ck2) dr)
          ix ordersAbs := by
  have hvlen : (sortThroughOrders dflt
      (sliceCols (axis * ck2) (axis * ck2 + ck2) dr) ix ordersAbs).length
        = dr.length := by
    rw [sortThroughOrders_length, sliceCols_length, hor]
    simp
  refine List.ext_getElem ?_ ?_
  · rw [sliceCols_length, drAxisStep_length _ _ _ _ _ _ hor, hvlen]
  · intro r h1 h2
    have hr : r < dr.length := by
      rw [hvlen] at h2
      exact h2
    have hslice : r < (sliceCols (axis * ck2) (axis * ck2 + ck2)
        (drAxisStep dflt ck2 ix ordersAbs dr axis)).length := h1
    rw [← List.getD_eq_getElem _ [] h1, ← List.getD_eq_getElem _ [] h2]
    rw [sliceCols_getD (by rw [drAxisStep_length _ _ _ _ _ _ hor]; exact hr)]
    rw [drAxisStep, setSliceCols_getD hr (by rw [hvlen]; exact hr)]
    have harith : axis * ck2 + ck2 - axis * ck2 = ck2 := by omega
    rw [harith]
    exact sliceRow_setSliceRow_same
      (drAxisStep_vals_getD_length dflt ck2 ix hr hor (hw r hr)) (hw r hr)

theorem sliceCols_drAxisStep_disjoint {β : Type _} (dflt : β) (ck2 : ℕ)
    (ix : List ℕ) {ordersAbs : List (List ℕ)} {dr : List (List β)}
    {axis axisT : ℕ} (hor : ordersAbs.length = dr.length)
    (hne : axisT ≠ axis)
    (hw : ∀ r, r < dr.length → axis * ck2 + ck2 ≤ (dr.getD r []).length)
    (hwT : ∀ r, r < dr.length → axisT * ck2 + ck2 ≤ (dr.getD r []).length) :
    sliceCols (axisT * ck2) (axisT * ck2 + ck2)
        (drAxisStep dflt ck2 ix ordersAbs dr axis)
      = sliceCols (axisT * ck2) (axisT * ck2 + ck2) dr := by
  refine List.ext_getElem ?_ ?_
  · rw [sliceCols_length, sliceCols_length, drAxisStep_length _ _ _ _ _ _ hor]
  · intro r h1 h2
    have hr : r < dr.length := by
      rw [sliceCols_length] at h2
      exact h2
    rw [← List.getD_eq_getElem _ [] h1, ← List.getD_eq_getElem _ [] h2]
    rw [sliceCols_getD (by rw [drAxisStep_length _ _ _ _ _ _ hor]; exact hr),
      sliceCols_getD hr]
    rw [drAxisStep, setSliceCols_getD hr
      (by rw [sortThroughOrders_length, sliceCols_length, hor]; simpa using hr)]
    have hvlen : ((sortThroughOrders dflt
        (sliceCols (axis * ck2) (axis * ck2 + ck2) dr) ix ordersAbs).getD r
          []).length = ck2 :=
      drAxisStep_vals_getD_length dflt ck2 ix hr hor (hw r hr)
    have harith : axisT * ck2 + ck2 - axisT * ck2 = ck2 := by omega
    rw [harith]
    refine sliceRow_setSliceRow_disjoint (by rw [hvlen]; exact hw r hr) ?_
      (hwT r hr) dflt
    rcases Nat.lt_or_ge axisT axis with h | h
    · left
      have h1 : (axisT + 1) * ck2 ≤ axis * ck2 := Nat.mul_le_mul_right ck2 h
      have h2 : (axisT + 1) * ck2 = axisT * ck2 + ck2 := by ring
      omega
    · right
      have haxis : axis < axisT := lt_of_le_of_ne h (fun he => hne he.symm)
      have h1 : (axis + 1) * ck2 ≤ axisT * ck2 := Nat.mul_le_mul_right ck2 haxis
      have h2 : (axis + 1) * ck2 = axis * ck2 + ck2 := by ring
      rw [hvlen]
      omega

theorem foldl_drAxisStep_shape {β : Type _} (dflt : β) (ck2 : ℕ) (ix : List ℕ)
    (ordersAbs : List (List ℕ)) (axes : List ℕ) {W : ℕ}
    (haxes : ∀ axis ∈ axes, axis * ck2 + ck2 ≤ W) :
    ∀ {dr : List (List β)}, ordersAbs.length = dr.length →
      (∀ r, r < dr.length → (dr.getD r []).length = W) →
      (axes.foldl (drAxisStep dflt ck2 ix ordersAbs) dr).length = dr.length ∧
        ∀ r, r < dr.length →
          (((axes.foldl (drAxisStep dflt ck2 ix ordersAbs) dr)).getD r []).length
            = W := by
  induction axes with
  | nil => exact fun _ hw => ⟨rfl, hw⟩
  | cons axis rest ih =>
    intro dr hor hw
    have hb : axis * ck2 + ck2 ≤ W := haxes axis (List.mem_cons_self axis rest)
    have hlen1 : (drAxisStep dflt ck2 ix ordersAbs dr axis).length = dr.length :=
      drAxisStep_length dflt ck2 ix ordersAbs dr axis hor
    have hw1 : ∀ r, r < (drAxisStep dflt ck2 ix ordersAbs dr axis).length →
        (((drAxisStep dflt ck2 ix ordersAbs dr axis)).getD r []).length = W := by
      intro r hr
      rw [hlen1] at hr
      rw [drAxisStep_getD_length dflt ck2 ix hr hor (by rw [hw r hr]; exact hb),
        hw r hr]
    have hih : ∀ {dr2 : List (List β)}, ordersAbs.length = dr2.length →
        (∀ r, r < dr2.length → (dr2.getD r []).length = W) →
        (rest.foldl (drAxisStep dflt ck2 ix ordersAbs) dr2).length
            = dr2.length ∧
          ∀ r, r < dr2.length →
            ((rest.foldl (drAxisStep dflt ck2 ix ordersAbs) dr2).getD r
              []).length = W :=
      ih (fun a ha => haxes a (List.mem_cons_of_mem axis ha))
    have hrest := @hih (drAxisStep dflt ck2 ix ordersAbs dr axis)
      (by rw [hlen1]; exact hor) hw1
    rw [List.foldl_cons]
    exact ⟨by rw [hrest.1, hlen1], fun r hr => hrest.2 r (by rw [hlen1]; exact hr)⟩

theorem foldl_drAxisStep_untouched {β : Type _} (dflt : β) (ck2 : ℕ)
    (ix : List ℕ) (ordersAbs : List (List ℕ)) (axes : List ℕ) {W axisT : ℕ}
    (haxes : ∀ axis ∈ axes, axis * ck2 + ck2 ≤ W)
    (haT : ∀ axis ∈ axes, axisT ≠ axis) (haTle : axisT * ck2 + ck2 ≤ W) :
    ∀ {dr : List (List β)}, ordersAbs.length = dr.length →
      (∀ r, r < dr.length → (dr.getD r []).length = W) →
      sliceCols (axisT * ck2) (axisT * ck2 + ck2)
          (axes.foldl (drAxisStep dflt ck2 ix ordersAbs) dr)
        = sliceCols (axisT * ck2) (axisT * ck2 + ck2) dr := by
  induction axes with
  | nil => exact fun _ _ => rfl
  | cons axis rest ih =>
    intro dr hor hw
    have hb : axis * ck2 + ck2 ≤ W := haxes axis (List.mem_cons_self axis rest)
    have hlen1 : (drAxisStep dflt ck2 ix ordersAbs dr axis).length = dr.length :=
      drAxisStep_length dflt ck2 ix ordersAbs dr axis hor
    have hw1 : ∀ r, r < (drAxisStep dflt ck2 ix ordersAbs dr axis).length →
        (((drAxisStep dflt ck2 ix ordersAbs dr axis)).getD r []).length = W := by
      intro r hr
      rw [hlen1] at hr
      rw [drAxisStep_getD_length dflt ck2 ix hr hor (by rw [hw r hr]; exact hb),
        hw r hr]
    rw [List.foldl_cons]
    rw [ih (fun a ha => haxes a (List.mem_cons_of_mem axis ha))
      (fun a ha => haT a (List.mem_cons_of_mem axis ha))
      (by rw [hlen1]; exact hor) hw1]
    exact sliceCols_drAxisStep_disjoint dflt ck2 ix hor
      (haT axis (List.mem_cons_self axis rest))
      (fun r hr => by rw [hw r hr]; exact hb)
      (fun r hr => by rw [hw r hr]; exact haTle)

theorem foldl_drAxisStep_main {β : Type _} (dflt : β) (ck2 : ℕ) (ix : List ℕ)
    (ordersAbs : List (List ℕ)) (axes : List ℕ) {W : ℕ} (axisT : ℕ)
    (haxes : ∀ axis ∈ axes, axis * ck2 + ck2 ≤ W)
    (hnodup : axes.Nodup) (hmem : axisT ∈ axes) :
    ∀ {dr : List (List β)}, ordersAbs.length = dr.length →
      (∀ r, r < dr.length → (dr.getD r []).length = W) →
      sliceCols (axisT * ck2) (axisT * ck2 + ck2)
          (axes.foldl (drAxisStep dflt ck2 ix ordersAbs) dr)
        = sortThroughOrders dflt
            (sliceCols (axisT * ck2) (axisT * ck2 + ck2) dr) ix ordersAbs := by
  induction axes with
  | nil => exact absurd hmem (List.not_mem_nil axisT)
  | cons axis rest ih =>
    intro dr hor hw
    have hb : axis * ck2 + ck2 ≤ W := haxes axis (List.mem_cons_self axis rest)
    have haTle : axisT * ck2 + ck2 ≤ W := haxes axisT hmem
    have hlen1 : (drAxisStep dflt ck2 ix ordersAbs dr axis).length = dr.length :=
      drAxisStep_length dflt ck2 ix ordersAbs dr axis hor
    have hw1 : ∀ r, r < (drAxisStep dflt ck2 ix ordersAbs dr axis).length →
        (((drAxisStep dflt ck2 ix ordersAbs dr axis)).getD r []).length = W := by
      intro r hr
      rw [hlen1] at hr
      rw [drAxisStep_getD_length dflt ck2 ix hr hor (by rw [hw r hr]; exact hb),
        hw r hr]
    rw [List.foldl_cons]
    by_cases hcase : axisT = axis
    · subst hcase
      have hnotin : ∀ a ∈ rest, axisT ≠ a := by
        intro a ha he
        rw [List.nodup_cons] at hnodup
        exact hnodup.1 (he ▸ ha)
      rw [foldl_drAxisStep_untouched dflt ck2 ix ordersAbs rest
        (fun a ha => haxes a (List.mem_cons_of_mem axisT ha)) hnotin haTle
        (by rw [hlen1]; exact hor) hw1]
      exact sliceCols_drAxisStep_same dflt ck2 ix hor
        (fun r hr => by rw [hw r hr]; exact hb)
    · have hmemr : axisT ∈ rest := by
        rcases List.mem_cons.mp hmem with h | h
        · exact absurd h hcase
        · exact h
      rw [ih (fun a ha => haxes a (List.mem_cons_of_mem axis ha))
        (List.Nodup.of_cons hnodup) hmemr (by rw [hlen1]; exact hor) hw1]
      rw [sliceCols_drAxisStep_disjoint dflt ck2 ix hor hcase
        (fun r hr => by rw [hw r hr]; exact hb)
        (fun r hr => by rw [hw r hr]; exact haTle)]

/-- C4: one pass of the force-mode conditional sorter over a
duplicated-bond column group applies one and the same row-wise
permutation, namely the argsort of the feature sub-vector of the row, to
the feature columns, the covalent-radii columns, both layers of the
index-bookkeeping matrix, and each of the six coordinate-delta column
blocks; all other columns and no array are touched independently. -/
theorem C4_force_sort_joint_permutation {β : Type _} [LinearOrder β] (dflt : β)
    (ck2 : ℕ) (ix : List ℕ) (S : ForceArrays β) (n : ℕ)
    (hfn : S.feat.length = n) (hcn : S.cr.length = n) (hdn : S.dr.length = n)
    (han : S.idxA.length = n) (hbn : S.idxB.length = n)
    (hfw : ∀ row ∈ S.feat, row.length = ck2)
    (hcw : ∀ row ∈ S.cr, row.length = ck2)
    (hdw : ∀ row ∈ S.dr, row.length = 6 * ck2)
    (haw : ∀ row ∈ S.idxA, row.length = ck2)
    (hbw : ∀ row ∈ S.idxB, row.length = ck2)
    (hix : ∀ j ∈ ix, j < ck2) (hnodup : ix.Nodup)
    (rIdx : ℕ) (hr : rIdx < n) :
    gatherIdxs dflt ((forceSortGroup dflt ck2 ix S).feat.getD rIdx []) ix
        = (argsortRow dflt (gatherIdxs dflt (S.feat.getD rIdx []) ix)).map
            (fun o => (gatherIdxs dflt (S.feat.getD rIdx []) ix).getD o dflt) ∧
      gatherIdxs dflt ((forceSortGroup dflt ck2 ix S).cr.getD rIdx []) ix
        = (argsortRow dflt (gatherIdxs dflt (S.feat.getD rIdx []) ix)).map
            (fun o => (gatherIdxs dflt (S.cr.getD rIdx []) ix).getD o dflt) ∧
      gatherIdxs (-1 : ℤ) ((forceSortGroup dflt ck2 ix S).idxA.getD rIdx []) ix
        = (argsortRow dflt (gatherIdxs dflt (S.feat.getD rIdx []) ix)).map
            (fun o => (gatherIdxs (-1 : ℤ) (S.idxA.getD rIdx []) ix).getD o (-1)) ∧
      gatherIdxs (-1 : ℤ) ((forceSortGroup dflt ck2 ix S).idxB.getD rIdx []) ix
        = (argsortRow dflt (gatherIdxs dflt (S.feat.getD rIdx []) ix)).map
            (fun o => (gatherIdxs (-1 : ℤ) (S.idxB.getD rIdx []) ix).getD o (-1)) ∧
      ∀ axis, axis < 6 →
        gatherIdxs dflt ((sliceCols (axis * ck2) (axis * ck2 + ck2)
              (forceSortGroup dflt ck2 ix S).dr).getD rIdx []) ix
          = (argsortRow dflt (gatherIdxs dflt (S.feat.getD rIdx []) ix)).map
              (fun o => (gatherIdxs dflt ((sliceCols (axis * ck2)
                (axis * ck2 + ck2) S.dr).getD rIdx []) ix).getD o dflt) := by
  have hrf : rIdx < S.feat.length := by rw [hfn]; exact hr
  have hzrow : (gatherCols dflt S.feat ix).getD rIdx []
      = gatherIdxs dflt (S.feat.getD rIdx []) ix := gatherCols_getD dflt ix hrf
  have hz : ∀ row ∈ gatherCols dflt S.feat ix, row.length = ix.length := by
    intro row hrow
    obtain ⟨row0, hrow0, rfl⟩ := List.mem_map.mp hrow
    simp [gatherIdxs]
  have hzn : (gatherCols dflt S.feat ix).length = n := by
    rw [gatherCols_length, hfn]
  refine ⟨?_, ?_, ?_, ?_, ?_⟩
  · have := sortThroughOrders_row dflt dflt (gatherCols dflt S.feat ix)
      S.feat ix ck2 (by rw [hzn, hfn]) hz hfw hix hnodup hrf
    rw [hzrow] at this
    exact this
  · have hrc : rIdx < S.cr.length := by rw [hcn]; exact hr
    have := sortThroughOrders_row dflt dflt (gatherCols dflt S.feat ix)
      S.cr ix ck2 (by rw [hzn, hcn]) hz hcw hix hnodup hrc
    rw [hzrow] at this
    exact this
  · have hra : rIdx < S.idxA.length := by rw [han]; exact hr
    have := sortThroughOrders_row dflt (-1 : ℤ) (gatherCols dflt S.feat ix)
      S.idxA ix ck2 (by rw [hzn, han]) hz haw hix hnodup hra
    rw [hzrow] at this
    exact this
  · have hrb : rIdx < S.idxB.length := by rw [hbn]; exact hr
    have := sortThroughOrders_row dflt (-1 : ℤ) (gatherCols dflt S.feat ix)
      S.idxB ix ck2 (by rw [hzn, hbn]) hz hbw hix hnodup hrb
    rw [hzrow] at this
    exact this
  · intro axis haxis
    have haxes : ∀ a ∈ List.range 6, a * ck2 + ck2 ≤ 6 * ck2 := by
      intro a ha
      have ha6 : a < 6 := List.mem_range.mp ha
      have h1 : (a + 1) * ck2 ≤ 6 * ck2 := Nat.mul_le_mul_right ck2 (by omega)
      have h2 : (a + 1) * ck2 = a * ck2 + ck2 := by ring
      omega
    have hor : (absOrders dflt (gatherCols dflt S.feat ix)).length
        = S.dr.length := by
      rw [absOrders_length, hzn, hdn]
    have hwd : ∀ r, r < S.dr.length → (S.dr.getD r []).length = 6 * ck2 :=
      fun r hrd => hdw _ (getD_mem_of_lt hrd [])
    have hfold := foldl_drAxisStep_main dflt ck2 ix
      (absOrders dflt (gatherCols dflt S.feat ix)) (List.range 6)
      axis haxes (List.nodup_range 6) (List.mem_range.mpr haxis)
      hor hwd
    have hslicew : ∀ row ∈ sliceCols (axis * ck2) (axis * ck2 + ck2) S.dr,
        row.length = ck2 := by
      intro row hrow
      obtain ⟨row0, hrow0, rfl⟩ := List.mem_map.mp hrow
      simp only [List.length_take, List.length_drop]
      have := hdw row0 hrow0
      have hb := haxes axis (List.mem_range.mpr haxis)
      omega
    have hrd : rIdx < (sliceCols (axis * ck2) (axis * ck2 + ck2) S.dr).length := by
      rw [sliceCols_length, hdn]
      exact hr
    show gatherIdxs dflt ((sliceCols (axis * ck2) (axis * ck2 + ck2)
        ((List.range 6).foldl (drAxisStep dflt ck2 ix
          (absOrders dflt (gatherCols dflt S.feat ix))) S.dr)).getD rIdx []) ix = _
    rw [hfold]
    have := sortThroughOrders_row dflt dflt (gatherCols dflt S.feat ix)
      (sliceCols (axis * ck2) (axis * ck2 + ck2) S.dr) ix ck2
      (by rw [hzn, sliceCols_length, hdn]) hz hslicew hix hnodup hrd
    rw [hzrow] at this
    exact this

/-- Witness for C4 at a concrete one-row block over ℤ with `ck2 = 2` and
the column group `[0, 1]`. -/
theorem C4_witness :
    gatherIdxs (0 : ℤ)
        ((forceSortGroup (0 : ℤ) 2 [0, 1]
          ⟨[[3, 1]], [[5, 6]], [[1, 2, 3, 4, 5, 6, 7, 8, 9, 10, 11, 12]],
            [[7, 8]], [[9, 10]]⟩).feat.getD 0 []) [0, 1]
      = (argsortRow (0 : ℤ) (gatherIdxs (0 : ℤ) ([[3, 1]].getD 0 []) [0, 1])).map
          (fun o => (gatherIdxs (0 : ℤ) ([[3, 1]].getD 0 []) [0, 1]).getD o 0) :=
  (C4_force_sort_joint_permutation (0 : ℤ) 2 [0, 1]
    ⟨[[3, 1]], [[5, 6]], [[1, 2, 3, 4, 5, 6, 7, 8, 9, 10, 11, 12]],
      [[7, 8]], [[9, 10]]⟩ 1 rfl rfl rfl rfl rfl (by decide) (by decide)
    (by decide) (by decide) (by decide) (by decide) (by decide) 0
    (by decide)).1

/-! ## Pair-list structure (towards the C3 permutation analysis) -/

/-- Pointwise `getD` equality on equal-length lists gives list equality. -/
theorem eq_of_getD {γ : Type _} (dflt : γ) {r₁ r₂ : List γ}
    (hlen : r₁.length = r₂.length)
    (h : ∀ j, j < r₁.length → r₁.getD j dflt = r₂.getD j dflt) : r₁ = r₂ := by
  apply List.ext_getElem hlen
  intro j hj₁ hj₂
  have key := h j hj₁
  rw [List.getD_eq_getElem r₁ dflt hj₁, List.getD_eq_getElem r₂ dflt hj₂] at key
  exact key

/-- Reading every position of a list back through `getD` reproduces it. -/
theorem map_getD_range {γ : Type _} (d : γ) (l : List γ) :
    (List.range l.length).map (fun i => l.getD i d) = l := by
  apply List.ext_getElem (by simp)
  intro j hj₁ hj₂
  simp only [List.getElem_map, List.getElem_range]
  exact List.getD_eq_getElem l d hj₂

/-- `listPairs` commutes with mapping a function over the list. -/
theorem listPairs_map {γ δ : Type _} (f : γ → δ) (l : List γ) :
    listPairs (l.map f) = (listPairs l).map (Prod.map f f) := by
  induction l with
  | nil => rfl
  | cons x xs ih =>
    simp only [List.map_cons, listPairs, List.map_append, List.map_map, ih]
    congr 1

/-- `listPairs` of any list is the pair list of its positions, read
through `getD`. -/
theorem listPairs_eq_map_range {γ : Type _} (d : γ) (l : List γ) :
    listPairs l = (listPairs (List.range l.length)).map
      (fun pq => (l.getD pq.1 d, l.getD pq.2 d)) := by
  have h := listPairs_map (fun i => l.getD i d) (List.range l.length)
  rw [map_getD_range] at h
  exact h

/-- The length of `listPairs` depends only on the length of the list. -/
theorem listPairs_length_congr {γ δ : Type _} {l₁ : List γ} {l₂ : List δ}
    (h : l₁.length = l₂.length) :
    (listPairs l₁).length = (listPairs l₂).length := by
  induction l₁ generalizing l₂ with
  | nil =>
    cases l₂ with
    | nil => rfl
    | cons y ys => simp at h
  | cons x xs ih =>
    cases l₂ with
    | nil => simp at h
    | cons y ys =>
      simp only [List.length_cons, Nat.succ.injEq] at h
      simp only [listPairs, List.length_append, List.length_map, h, ih h]

/-- Both components of a pair of `listPairs l` are members of `l`. -/
theorem mem_of_mem_listPairs {γ : Type _} {l : List γ} {pq : γ × γ}
    (h : pq ∈ listPairs l) : pq.1 ∈ l ∧ pq.2 ∈ l := by
  induction l with
  | nil => simp [listPairs] at h
  | cons x xs ih =>
    simp only [listPairs, List.mem_append, List.mem_map] at h
    rcases h with ⟨y, hy, rfl⟩ | h
    · exact ⟨List.mem_cons_self x xs, List.mem_cons_of_mem _ hy⟩
    · have hc := ih h
      exact ⟨List.mem_cons_of_mem _ hc.1, List.mem_cons_of_mem _ hc.2⟩

/-- `listPairs` membership over an append. -/
theorem mem_listPairs_append {γ : Type _} {l₁ l₂ : List γ} {pq : γ × γ} :
    pq ∈ listPairs (l₁ ++ l₂) ↔
      pq ∈ listPairs l₁ ∨ pq ∈ listPairs l₂ ∨ (pq.1 ∈ l₁ ∧ pq.2 ∈ l₂) := by
  induction l₁ with
  | nil => simp [listPairs]
  | cons x xs ih =>
    constructor
    · intro h
      rw [List.cons_append] at h
      simp only [listPairs, List.mem_append, List.mem_map] at h
      rcases h with ⟨y, hy, rfl⟩ | h
      · rcases hy with h₁ | h₂
        · refine Or.inl ?_
          simp only [listPairs, List.mem_append, List.mem_map]
          exact Or.inl ⟨y, h₁, rfl⟩
        · exact Or.inr (Or.inr ⟨List.mem_cons_self x xs, h₂⟩)
      · rcases ih.mp h with h | h | ⟨ha, hb⟩
        · refine Or.inl ?_
          simp only [listPairs, List.mem_append]
          exact Or.inr h
        · exact Or.inr (Or.inl h)
        · exact Or.inr (Or.inr ⟨List.mem_cons_of_mem x ha, hb⟩)
    · intro h
      rw [List.cons_append]
      simp only [listPairs, List.mem_append, List.mem_map]
      rcases h with h | h | ⟨ha, hb⟩
      · simp only [listPairs, List.mem_append, List.mem_map] at h
        rcases h with ⟨y, hy, rfl⟩ | h
        · exact Or.inl ⟨y, Or.inl hy, rfl⟩
        · exact Or.inr (ih.mpr (Or.inl h))
      · exact Or.inr (ih.mpr (Or.inr (Or.inl h)))
      · rcases List.mem_cons.mp ha with h₁ | h₁
        · exact Or.inl ⟨pq.2, Or.inr hb, by rw [← h₁]⟩
        · exact Or.inr (ih.mpr (Or.inr (Or.inr ⟨h₁, hb⟩)))

/-- Membership in the position-pair list of `range n`. -/
theorem mem_listPairs_range {n : ℕ} {pq : ℕ × ℕ} :
    pq ∈ listPairs (List.range n) ↔ pq.1 < pq.2 ∧ pq.2 < n := by
  induction n with
  | zero => simp [List.range_zero, listPairs]
  | succ n ih =>
    rw [List.range_succ, mem_listPairs_append]
    have hnil : listPairs [n] = [] := rfl
    rw [hnil, ih]
    simp only [List.mem_range, List.mem_singleton]
    constructor
    · rintro (⟨h₁, h₂⟩ | h | ⟨h₁, h₂⟩)
      · omega
      · exact absurd h (List.not_mem_nil _)
      · omega
    · rintro ⟨h₁, h₂⟩
      rcases Nat.lt_succ_iff_lt_or_eq.mp h₂ with h | h
      · exact Or.inl ⟨h₁, h⟩
      · exact Or.inr (Or.inr ⟨h ▸ h₁, h⟩)

/-- `listPairs` of a duplicate-free list is duplicate-free. -/
theorem nodup_listPairs {γ : Type _} {l : List γ} (h : l.Nodup) :
    (listPairs l).Nodup := by
  induction l with
  | nil => simp [listPairs]
  | cons x xs ih =>
    rw [List.nodup_cons] at h
    refine List.Nodup.append ?_ (ih h.2) ?_
    · exact h.2.map (fun a b hab => congrArg Prod.snd hab)
    · intro pq hpq₁ hpq₂
      rcases List.mem_map.mp hpq₁ with ⟨y, hy, rfl⟩
      exact h.1 (mem_of_mem_listPairs hpq₂).1

/-- Filtering positions of a list by a predicate on entries and reading
the entries through `getD` equals filtering the entries directly. -/
theorem filter_range_map_getD {γ δ : Type _} (d : γ) (l : List γ)
    (P : γ → Bool) (G : γ → δ) :
    ((List.range l.length).filter (fun j => P (l.getD j d))).map
        (fun j => G (l.getD j d))
      = (l.filter P).map G := by
  induction l with
  | nil => rfl
  | cons a l ih =>
    have hcomp : ((List.range l.length).filter
          (fun j => P ((a :: l).getD (j + 1) d))).map
          (fun j => G ((a :: l).getD (j + 1) d))
        = (l.filter P).map G := by
      simp only [List.getD_cons_succ]
      exact ih
    rw [List.length_cons, List.range_succ_eq_map, List.filter_cons, List.filter_cons,
      List.filter_map]
    simp only [List.getD_cons_zero]
    by_cases hPa : P a = true
    · rw [if_pos hPa, if_pos hPa, List.map_cons, List.map_map, List.map_cons]
      simp only [List.getD_cons_zero]
      exact congrArg (G a :: ·) hcomp
    · rw [if_neg hPa, if_neg hPa, List.map_map]
      exact hcomp

/-- A self-map of a duplicate-free list that is injective on it permutes
the list. -/
theorem perm_map_self {γ : Type _} [DecidableEq γ] {l : List γ} (hnodup : l.Nodup)
    {φ : γ → γ} (hmem : ∀ x ∈ l, φ x ∈ l)
    (hinj : ∀ x ∈ l, ∀ y ∈ l, φ x = φ y → x = y) :
    (l.map φ).Perm l := by
  have h1 : (l.map φ).Nodup := hnodup.map_on hinj
  have h2 : l.map φ ⊆ l := by
    intro a ha
    rcases List.mem_map.mp ha with ⟨x, hx, rfl⟩
    exact hmem x hx
  have h3 := List.subperm_of_subset h1 h2
  exact h3.perm_of_length_le (by simp)

/-! ## The conditional-sorting invariance engine -/

theorem applySortGroup_length {β : Type _} [LinearOrder β] (dflt : β) (ix : List ℕ)
    (row : List β) : (applySortGroup dflt ix row).length = row.length := by
  simp [applySortGroup]

theorem applySortGroup_getD {β : Type _} [LinearOrder β] (dflt : β) (ix : List ℕ)
    (row : List β) {j : ℕ} (hj : j < row.length) :
    (applySortGroup dflt ix row).getD j dflt
      = if j ∈ ix then ((gatherIdxs dflt row ix).mergeSort leB).getD (ix.indexOf j) dflt
        else row.getD j dflt := by
  simp only [applySortGroup]
  rw [getD_map_range hj]

/-- Sorting one column group does not change columns outside the group,
so a later gather over a disjoint group reads the original values. -/
theorem gather_applySortGroup_disjoint {β : Type _} [LinearOrder β] (dflt : β)
    {ix ix2 : List ℕ} (row : List β) (hsub : ∀ j ∈ ix2, j < row.length)
    (hdisj : ∀ j ∈ ix2, j ∉ ix) :
    gatherIdxs dflt (applySortGroup dflt ix row) ix2 = gatherIdxs dflt row ix2 := by
  simp only [gatherIdxs]
  apply List.map_congr_left
  intro j hjmem
  rw [applySortGroup_getD dflt ix row (hsub j hjmem), if_neg (hdisj j hjmem)]

theorem applyGroups_cons {β : Type _} [LinearOrder β] (dflt : β) (g : List ℕ)
    (gs : List (List ℕ)) (row : List β) :
    applyGroups dflt (g :: gs) row
      = applyGroups dflt gs (applySortGroup dflt g row) := rfl

theorem applyGroups_length {β : Type _} [LinearOrder β] (dflt : β)
    (groups : List (List ℕ)) (row : List β) :
    (applyGroups dflt groups row).length = row.length := by
  induction groups generalizing row with
  | nil => rfl
  | cons g gs ih => rw [applyGroups_cons, ih, applySortGroup_length]

/-- The invariance engine: two rows that agree outside a family of
pairwise-disjoint column groups and whose values over each group agree as
multisets become equal once every group is sorted in place. -/
theorem applyGroups_congr {β : Type _} [LinearOrder β] (dflt : β)
    (groups : List (List ℕ)) (n : ℕ)
    (hdisj : groups.Pairwise (fun g₁ g₂ => ∀ j ∈ g₁, j ∉ g₂))
    (hsub : ∀ g ∈ groups, ∀ j ∈ g, j < n) :
    ∀ {r₁ r₂ : List β}, r₁.length = n → r₂.length = n →
      (∀ j, j < n → (∀ g ∈ groups, j ∉ g) → r₁.getD j dflt = r₂.getD j dflt) →
      (∀ g ∈ groups, (gatherIdxs dflt r₁ g).Perm (gatherIdxs dflt r₂ g)) →
      applyGroups dflt groups r₁ = applyGroups dflt groups r₂ := by
  induction groups with
  | nil =>
    intro r₁ r₂ h₁ h₂ hoff _
    exact eq_of_getD dflt (h₁.trans h₂.symm)
      (fun j hj => hoff j (h₁ ▸ hj) (fun g hg => absurd hg (List.not_mem_nil g)))
  | cons g gs ih =>
    intro r₁ r₂ h₁ h₂ hoff hperm
    rw [List.pairwise_cons] at hdisj
    rw [applyGroups_cons, applyGroups_cons]
    refine ih hdisj.2 (fun g2 hg2 => hsub g2 (List.mem_cons_of_mem g hg2))
      (by rw [applySortGroup_length, h₁]) (by rw [applySortGroup_length, h₂]) ?_ ?_
    · intro j hj hnot
      rw [applySortGroup_getD dflt g r₁ (h₁ ▸ hj),
        applySortGroup_getD dflt g r₂ (h₂ ▸ hj)]
      by_cases hjg : j ∈ g
      · rw [if_pos hjg, if_pos hjg,
          mergeSort_leB_eq_of_perm (hperm g (List.mem_cons_self g gs))]
      · rw [if_neg hjg, if_neg hjg]
        refine hoff j hj ?_
        intro g2 hg2
        rcases List.mem_cons.mp hg2 with h | h
        · rw [h]; exact hjg
        · exact hnot g2 h
    · intro g2 hg2
      have hdisj2 : ∀ j ∈ g2, j ∉ g := fun j hj2 hjg => hdisj.1 g2 hg2 j hjg hj2
      rw [gather_applySortGroup_disjoint dflt r₁
          (fun j hj2 => h₁ ▸ hsub g2 (List.mem_cons_of_mem g hg2) j hj2) hdisj2,
        gather_applySortGroup_disjoint dflt r₂
          (fun j hj2 => h₂ ▸ hsub g2 (List.mem_cons_of_mem g hg2) j hj2) hdisj2]
      exact hperm g2 (List.mem_cons_of_mem g hg2)

/-! ## Bond classes of a term as position-pair lists -/

/-- Membership in a bond-class column group. -/
theorem mem_bond_group {bonds : List (String × String)} {b : String × String}
    {j : ℕ} :
    j ∈ (List.range bonds.length).filter
        (fun j => bonds.getD j ("", "") == b)
      ↔ j < bonds.length ∧ bonds.getD j ("", "") = b := by
  simp [List.mem_filter]

/-- Every member of `condSortGroups t` is the full column class of some
duplicated bond, with at least two columns. -/
theorem mem_condSortGroups {t : List String} {g : List ℕ}
    (h : g ∈ condSortGroups t) :
    ∃ b, b ∈ (listPairs t).dedup ∧
      g = (List.range (listPairs t).length).filter
          (fun j => (listPairs t).getD j ("", "") == b) ∧
      2 ≤ g.length := by
  simp only [condSortGroups, List.mem_filterMap] at h
  rcases h with ⟨b, hb, hsome⟩
  by_cases h2 : 2 ≤ ((List.range (listPairs t).length).filter
      (fun j => (listPairs t).getD j ("", "") == b)).length
  · rw [if_pos h2] at hsome
    have hg := Option.some.inj hsome
    exact ⟨b, hb, hg.symm, hg ▸ h2⟩
  · rw [if_neg h2] at hsome
    exact absurd hsome (Option.noConfusion)

/-- Distinct bond classes are disjoint. -/
theorem condSortGroups_pairwise (t : List String) :
    (condSortGroups t).Pairwise (fun g₁ g₂ => ∀ j ∈ g₁, j ∉ g₂) := by
  have hd : (listPairs t).dedup.Pairwise (fun b₁ b₂ => b₁ ≠ b₂) :=
    List.nodup_dedup (listPairs t)
  refine List.Pairwise.filterMap _ ?_ hd
  intro b₁ b₂ hne g₁ hg₁ g₂ hg₂ j hj₁ hj₂
  simp only [Option.mem_def] at hg₁ hg₂
  by_cases h1 : 2 ≤ ((List.range (listPairs t).length).filter
      (fun j => (listPairs t).getD j ("", "") == b₁)).length
  · rw [if_pos h1] at hg₁
    by_cases h2 : 2 ≤ ((List.range (listPairs t).length).filter
        (fun j => (listPairs t).getD j ("", "") == b₂)).length
    · rw [if_pos h2] at hg₂
      rw [← Option.some.inj hg₁] at hj₁
      rw [← Option.some.inj hg₂] at hj₂
      exact hne ((mem_bond_group.mp hj₁).2.symm.trans (mem_bond_group.mp hj₂).2)
    · rw [if_neg h2] at hg₂
      exact Option.noConfusion hg₂
  · rw [if_neg h1] at hg₁
    exact Option.noConfusion hg₁

/-- The gather of a bond-class column group of an abstract feature row,
as a map over the position pairs of the bond class. -/
theorem gather_bond_class {β : Type _} (dflt : β) (F : ℕ → ℕ → β)
    (t : List String) (w : List ℕ) (hw : w.length = t.length)
    (b : String × String) :
    gatherIdxs dflt (rowOf F w)
        ((List.range (listPairs t).length).filter
          (fun j => (listPairs t).getD j ("", "") == b))
      = ((listPairs (List.range t.length)).filter
          (fun pq => ((t.getD pq.1 "", t.getD pq.2 "") == b))).map
          (fun pq => F (w.getD pq.1 0) (w.getD pq.2 0)) := by
  have hn : (listPairs t).length = (listPairs (List.range t.length)).length :=
    listPairs_length_congr (by simp)
  have hrow : rowOf F w = (listPairs (List.range t.length)).map
      (fun pq => F (w.getD pq.1 0) (w.getD pq.2 0)) := by
    unfold rowOf
    rw [listPairs_eq_map_range 0 w, List.map_map, hw]
    rfl
  have hfilter : (List.range (listPairs t).length).filter
        (fun j => (listPairs t).getD j ("", "") == b)
      = (List.range (listPairs (List.range t.length)).length).filter
        (fun j => ((t.getD ((listPairs (List.range t.length)).getD j (0, 0)).1 "",
            t.getD ((listPairs (List.range t.length)).getD j (0, 0)).2 "") == b)) := by
    rw [← hn]
    apply List.filter_congr
    intro j hj
    have hj2 : j < (listPairs (List.range t.length)).length :=
      hn ▸ List.mem_range.mp hj
    have hb2 : (listPairs t).getD j ("", "")
        = (t.getD ((listPairs (List.range t.length)).getD j (0, 0)).1 "",
           t.getD ((listPairs (List.range t.length)).getD j (0, 0)).2 "") := by
      conv_lhs => rw [listPairs_eq_map_range "" t]
      exact getD_map_of_lt hj2 (0, 0) ("", "")
    rw [hb2]
  rw [hrow]
  show ((List.range (listPairs t).length).filter
      (fun j => (listPairs t).getD j ("", "") == b)).map
      (fun j => ((listPairs (List.range t.length)).map
        (fun pq => F (w.getD pq.1 0) (w.getD pq.2 0))).getD j dflt) = _
  rw [hfilter]
  have hmapeq : ∀ j ∈ (List.range (listPairs (List.range t.length)).length).filter
        (fun j => ((t.getD ((listPairs (List.range t.length)).getD j (0, 0)).1 "",
            t.getD ((listPairs (List.range t.length)).getD j (0, 0)).2 "") == b)),
      ((listPairs (List.range t.length)).map
        (fun pq => F (w.getD pq.1 0) (w.getD pq.2 0))).getD j dflt
        = F (w.getD ((listPairs (List.range t.length)).getD j (0, 0)).1 0)
            (w.getD ((listPairs (List.range t.length)).getD j (0, 0)).2 0) := by
    intro j hj
    have hj2 : j < (listPairs (List.range t.length)).length :=
      List.mem_range.mp (List.mem_filter.mp hj).1
    exact getD_map_of_lt hj2 (0, 0) dflt
  rw [List.map_congr_left hmapeq]
  exact filter_range_map_getD (0, 0) (listPairs (List.range t.length))
    (fun pq => ((t.getD pq.1 "", t.getD pq.2 "") == b))
    (fun pq => F (w.getD pq.1 0) (w.getD pq.2 0))

/-! ## Adjacent equal-species transpositions -/

theorem two_le_length_of_mem_ne {γ : Type _} {l : List γ} {a b : γ} (ha : a ∈ l)
    (hb : b ∈ l) (hab : a ≠ b) : 2 ≤ l.length := by
  cases l with
  | nil => exact absurd ha (List.not_mem_nil a)
  | cons x xs =>
    cases xs with
    | nil =>
      rw [List.mem_singleton] at ha hb
      exact absurd (ha.trans hb.symm) hab
    | cons y ys =>
      simp only [List.length_cons]
      omega

/-- The bond of column `j` is the species pair of its position pair. -/
theorem bonds_getD_eq {t : List String} {j : ℕ} (hj : j < (listPairs t).length) :
    (listPairs t).getD j ("", "")
      = (t.getD ((listPairs (List.range t.length)).getD j (0, 0)).1 "",
         t.getD ((listPairs (List.range t.length)).getD j (0, 0)).2 "") := by
  have hn : (listPairs t).length = (listPairs (List.range t.length)).length :=
    listPairs_length_congr (by simp)
  conv_lhs => rw [listPairs_eq_map_range "" t]
  exact getD_map_of_lt (hn ▸ hj) (0, 0) ("", "")

/-- A second position pair with the same bond as the pair of column `j`
forces column `j` into a conditional-sorting group. -/
theorem mem_group_of_second_pair {t : List String} {j : ℕ} {P2 : ℕ × ℕ}
    (hj : j < (listPairs t).length)
    (hP2 : P2 ∈ listPairs (List.range t.length))
    (hP2ne : P2 ≠ (listPairs (List.range t.length)).getD j (0, 0))
    (hbond : (t.getD P2.1 "", t.getD P2.2 "") = (listPairs t).getD j ("", "")) :
    ∃ g ∈ condSortGroups t, j ∈ g := by
  have hn : (listPairs t).length = (listPairs (List.range t.length)).length :=
    listPairs_length_congr (by simp)
  rcases List.mem_iff_getElem.mp hP2 with ⟨j₂, hj₂, hP2eq⟩
  have hP2getD : (listPairs (List.range t.length)).getD j₂ (0, 0) = P2 := by
    rw [List.getD_eq_getElem _ _ hj₂]
    exact hP2eq
  have hj₂n : j₂ < (listPairs t).length := hn ▸ hj₂
  have hb₂ : (listPairs t).getD j₂ ("", "") = (listPairs t).getD j ("", "") := by
    rw [bonds_getD_eq hj₂n, hP2getD, hbond]
  have hjne : j ≠ j₂ := by
    intro h
    rw [h, hP2getD] at hP2ne
    exact hP2ne rfl
  set b := (listPairs t).getD j ("", "") with hbdef
  set g := (List.range (listPairs t).length).filter
      (fun j => (listPairs t).getD j ("", "") == b) with hgdef
  have hjg : j ∈ g := mem_bond_group.mpr ⟨hj, rfl⟩
  have hj₂g : j₂ ∈ g := mem_bond_group.mpr ⟨hj₂n, hb₂⟩
  have h2 : 2 ≤ g.length := two_le_length_of_mem_ne hjg hj₂g hjne
  refine ⟨g, ?_, hjg⟩
  simp only [condSortGroups, List.mem_filterMap]
  refine ⟨b, ?_, ?_⟩
  · exact List.mem_dedup.mpr (getD_mem_of_lt hj ("", ""))
  · rw [← hgdef, if_pos h2]

/-- Unpacking one adjacent equal-species transposition into positionwise
form: `v` reads `u` through the transposition of `m` and `m + 1`. -/
theorem adjSwap_spec {t : List String} {u v : List ℕ} (h : adjSwap t u v) :
    ∃ m, m + 1 < u.length ∧ v.length = u.length ∧
      t.getD m "" = t.getD (m + 1) "" ∧
      (∀ i d, v.getD i d = u.getD ((Equiv.swap m (m + 1)) i) d) ∧
      (∀ a, a ∈ v ↔ a ∈ u) := by
  rcases h with ⟨pre, x, y, post, hu, hv, hsp⟩
  subst hu hv
  refine ⟨pre.length, ?_, ?_, hsp, ?_, ?_⟩
  · simp only [List.length_append, List.length_cons]
    omega
  · simp [List.length_append]
  · intro i d
    by_cases h1 : i < pre.length
    · rw [Equiv.swap_apply_of_ne_of_ne (by omega) (by omega),
        List.getD_append _ _ _ _ h1, List.getD_append _ _ _ _ h1]
    · by_cases h2 : i = pre.length
      · subst h2
        rw [Equiv.swap_apply_left,
          List.getD_append_right _ _ _ _ (le_refl _),
          List.getD_append_right _ _ _ _ (by omega)]
        have ha : pre.length - pre.length = 0 := by omega
        have hb : pre.length + 1 - pre.length = 1 := by omega
        rw [ha, hb, List.getD_cons_zero, List.getD_cons_succ, List.getD_cons_zero]
      · by_cases h3 : i = pre.length + 1
        · subst h3
          rw [Equiv.swap_apply_right,
            List.getD_append_right _ _ _ _ (by omega),
            List.getD_append_right _ _ _ _ (by omega)]
          have ha : pre.length + 1 - pre.length = 1 := by omega
          have hb : pre.length - pre.length = 0 := by omega
          rw [ha, hb, List.getD_cons_zero, List.getD_cons_succ, List.getD_cons_zero]
        · rw [Equiv.swap_apply_of_ne_of_ne h2 h3,
            List.getD_append_right _ _ _ _ (by omega),
            List.getD_append_right _ _ _ _ (by omega)]
          have ha : i - pre.length = i - pre.length - 2 + 1 + 1 := by omega
          rw [ha, List.getD_cons_succ, List.getD_cons_succ,
            List.getD_cons_succ, List.getD_cons_succ]
  · intro a
    constructor <;> intro ha <;>
      simp only [List.mem_append, List.mem_cons] at ha ⊢ <;> tauto

theorem rowOf_getD {β : Type _} (dflt : β) (F : ℕ → ℕ → β) (w : List ℕ) {j : ℕ}
    (hj : j < (listPairs (List.range w.length)).length) :
    (rowOf F w).getD j dflt
      = F (w.getD ((listPairs (List.range w.length)).getD j (0, 0)).1 0)
          (w.getD ((listPairs (List.range w.length)).getD j (0, 0)).2 0) := by
  have hrow : rowOf F w = (listPairs (List.range w.length)).map
      (fun pq => F (w.getD pq.1 0) (w.getD pq.2 0)) := by
    unfold rowOf
    rw [listPairs_eq_map_range 0 w, List.map_map]
    rfl
  rw [hrow]
  exact getD_map_of_lt hj (0, 0) dflt

/-- One adjacent equal-species transposition of the atom list leaves the
conditionally sorted feature row unchanged: the only bonds whose values
move are duplicated bonds, and those live inside sorted column groups. -/
theorem applyGroups_rowOf_adjSwap {β : Type _} [LinearOrder β] (dflt : β)
    (F : ℕ → ℕ → β) {t : List String} {u v : List ℕ}
    (hlen : u.length = t.length)
    (hsym : ∀ a b : ℕ, a ∈ u → b ∈ u → F a b = F b a)
    (hswap : adjSwap t u v) :
    applyGroups dflt (condSortGroups t) (rowOf F v)
      = applyGroups dflt (condSortGroups t) (rowOf F u) := by
  rcases adjSwap_spec hswap with ⟨m, hm, hvu, hsp, hgetD, hmemiff⟩
  have hvlen : v.length = t.length := hvu.trans hlen
  have hmk : m + 1 < t.length := hlen ▸ hm
  have hn : (listPairs t).length = (listPairs (List.range t.length)).length :=
    listPairs_length_congr (by simp)
  have hspecies : ∀ x : ℕ,
      t.getD ((Equiv.swap m (m + 1)) x) "" = t.getD x "" := by
    intro x
    rw [Equiv.swap_apply_def]
    by_cases h1 : x = m
    · rw [if_pos h1, h1]
      exact hsp.symm
    · rw [if_neg h1]
      by_cases h2 : x = m + 1
      · rw [if_pos h2, h2]
        exact hsp
      · rw [if_neg h2]
  have hswapval : ∀ x : ℕ, (Equiv.swap m (m + 1)) x
      = if x = m then m + 1 else if x = m + 1 then m else x :=
    fun x => Equiv.swap_apply_def m (m + 1) x
  have hσlt : ∀ x : ℕ, x < t.length → (Equiv.swap m (m + 1)) x < t.length := by
    intro x hx
    rw [hswapval x]
    split_ifs <;> omega
  have hrowu : (rowOf F u).length = (listPairs t).length := by
    unfold rowOf
    rw [List.length_map]
    exact listPairs_length_congr hlen
  have hrowv : (rowOf F v).length = (listPairs t).length := by
    unfold rowOf
    rw [List.length_map]
    exact listPairs_length_congr hvlen
  have hrowu_getD : ∀ j, j < (listPairs t).length →
      (rowOf F u).getD j dflt
        = F (u.getD ((listPairs (List.range t.length)).getD j (0, 0)).1 0)
            (u.getD ((listPairs (List.range t.length)).getD j (0, 0)).2 0) := by
    intro j hj
    have hk := rowOf_getD dflt F u (j := j) (by rw [hlen]; exact hn ▸ hj)
    rw [hlen] at hk
    exact hk
  have hrowv_getD : ∀ j, j < (listPairs t).length →
      (rowOf F v).getD j dflt
        = F (v.getD ((listPairs (List.range t.length)).getD j (0, 0)).1 0)
            (v.getD ((listPairs (List.range t.length)).getD j (0, 0)).2 0) := by
    intro j hj
    have hk := rowOf_getD dflt F v (j := j) (by rw [hvlen]; exact hn ▸ hj)
    rw [hvlen] at hk
    exact hk
  have hsub : ∀ g ∈ condSortGroups t, ∀ j ∈ g, j < (listPairs t).length := by
    intro g hg j hj
    rcases mem_condSortGroups hg with ⟨b, _, hgeq, _⟩
    rw [hgeq] at hj
    exact (mem_bond_group.mp hj).1
  refine applyGroups_congr dflt (condSortGroups t) (listPairs t).length
    (condSortGroups_pairwise t) hsub hrowv hrowu ?_ ?_
  · -- columns in no sorting group are untouched by the transposition
    intro j hj hnot
    set P := (listPairs (List.range t.length)).getD j (0, 0) with hPdef
    have hPmem : P ∈ listPairs (List.range t.length) :=
      getD_mem_of_lt (hn ▸ hj) (0, 0)
    have hPlt : P.1 < P.2 ∧ P.2 < t.length := mem_listPairs_range.mp hPmem
    rw [hrowv_getD j hj, hrowu_getD j hj, ← hPdef, hgetD, hgetD]
    by_cases hb : P.1 = m ∧ P.2 = m + 1
    · rw [hb.1, hb.2, Equiv.swap_apply_left, Equiv.swap_apply_right]
      exact hsym (u.getD (m + 1) 0) (u.getD m 0)
        (getD_mem_of_lt hm 0) (getD_mem_of_lt (by omega) 0)
    · by_cases htouch : P.1 = m ∨ P.1 = m + 1 ∨ P.2 = m ∨ P.2 = m + 1
      · exfalso
        have hord : (Equiv.swap m (m + 1)) P.1 < (Equiv.swap m (m + 1)) P.2 := by
          rw [hswapval, hswapval]
          split_ifs <;> omega
        have hP2mem : ((Equiv.swap m (m + 1)) P.1, (Equiv.swap m (m + 1)) P.2)
            ∈ listPairs (List.range t.length) :=
          mem_listPairs_range.mpr ⟨hord, hσlt P.2 hPlt.2⟩
        have hP2ne : ((Equiv.swap m (m + 1)) P.1, (Equiv.swap m (m + 1)) P.2)
            ≠ P := by
          intro hcontra
          have h1 : (Equiv.swap m (m + 1)) P.1 = P.1 := congrArg Prod.fst hcontra
          have h2 : (Equiv.swap m (m + 1)) P.2 = P.2 := congrArg Prod.snd hcontra
          rw [hswapval] at h1
          rw [hswapval] at h2
          split_ifs at h1 h2 <;> omega
        have hbond2 : (t.getD ((Equiv.swap m (m + 1)) P.1) "",
            t.getD ((Equiv.swap m (m + 1)) P.2) "")
              = (listPairs t).getD j ("", "") := by
          rw [hspecies, hspecies, bonds_getD_eq hj, ← hPdef]
        rcases mem_group_of_second_pair hj hP2mem (by rw [← hPdef]; exact hP2ne)
          hbond2 with ⟨g, hg, hjg⟩
        exact hnot g hg hjg
      · push_neg at htouch
        rw [Equiv.swap_apply_of_ne_of_ne htouch.1 htouch.2.1,
          Equiv.swap_apply_of_ne_of_ne htouch.2.2.1 htouch.2.2.2]
  · -- every sorting group is a full bond class, permuted by the swap
    intro g hg
    rcases mem_condSortGroups hg with ⟨b, hbmem, hgeq, hglen⟩
    subst hgeq
    rw [gather_bond_class dflt F t v hvlen b, gather_bond_class dflt F t u hlen b]
    set pairsB := (listPairs (List.range t.length)).filter
        (fun pq => ((t.getD pq.1 "", t.getD pq.2 "") == b)) with hpBdef
    set φ : ℕ × ℕ → ℕ × ℕ := fun pq =>
      if (Equiv.swap m (m + 1)) pq.1 ≤ (Equiv.swap m (m + 1)) pq.2 then
        ((Equiv.swap m (m + 1)) pq.1, (Equiv.swap m (m + 1)) pq.2)
      else ((Equiv.swap m (m + 1)) pq.2, (Equiv.swap m (m + 1)) pq.1)
      with hφdef
    have hmem_ordered : ∀ pq : ℕ × ℕ, pq ∈ pairsB →
        pq.1 < pq.2 ∧ pq.2 < t.length :=
      fun pq hpq => mem_listPairs_range.mp (List.mem_filter.mp hpq).1
    have hbond_of_mem : ∀ pq : ℕ × ℕ, pq ∈ pairsB →
        (t.getD pq.1 "", t.getD pq.2 "") = b := by
      intro pq hpq
      have hf := (List.mem_filter.mp hpq).2
      exact beq_iff_eq.mp hf
    have hforce : ∀ pq : ℕ × ℕ, pq ∈ pairsB →
        ¬((Equiv.swap m (m + 1)) pq.1 ≤ (Equiv.swap m (m + 1)) pq.2) →
        pq.1 = m ∧ pq.2 = m + 1 := by
      intro pq hpq hle
      have hlt := hmem_ordered pq hpq
      rw [hswapval, hswapval] at hle
      split_ifs at hle <;> omega
    have hφeq_pos : ∀ pq : ℕ × ℕ,
        (Equiv.swap m (m + 1)) pq.1 ≤ (Equiv.swap m (m + 1)) pq.2 →
        φ pq = ((Equiv.swap m (m + 1)) pq.1, (Equiv.swap m (m + 1)) pq.2) := by
      intro pq hle
      simp only [hφdef]
      rw [if_pos hle]
    have hφeq_neg : ∀ pq : ℕ × ℕ, pq ∈ pairsB →
        ¬((Equiv.swap m (m + 1)) pq.1 ≤ (Equiv.swap m (m + 1)) pq.2) →
        φ pq = (m, m + 1) := by
      intro pq hpq hle
      rcases hforce pq hpq hle with ⟨h1, h2⟩
      simp only [hφdef]
      rw [if_neg hle, h1, h2, Equiv.swap_apply_left, Equiv.swap_apply_right]
    have hne_swap : ∀ pq : ℕ × ℕ, pq ∈ pairsB →
        (Equiv.swap m (m + 1)) pq.1 ≠ (Equiv.swap m (m + 1)) pq.2 := by
      intro pq hpq hcontra
      exact Nat.ne_of_lt (hmem_ordered pq hpq).1 ((Equiv.swap m (m + 1)).injective hcontra)
    have hmapsTo : ∀ pq ∈ pairsB, φ pq ∈ pairsB := by
      intro pq hpq
      refine List.mem_filter.mpr ⟨?_, ?_⟩
      · refine mem_listPairs_range.mpr ?_
        by_cases hle : (Equiv.swap m (m + 1)) pq.1 ≤ (Equiv.swap m (m + 1)) pq.2
        · rw [hφeq_pos pq hle]
          exact ⟨lt_of_le_of_ne hle (hne_swap pq hpq),
            hσlt pq.2 (hmem_ordered pq hpq).2⟩
        · rw [hφeq_neg pq hpq hle]
          exact ⟨by omega, hmk⟩
      · rw [beq_iff_eq]
        by_cases hle : (Equiv.swap m (m + 1)) pq.1 ≤ (Equiv.swap m (m + 1)) pq.2
        · rw [hφeq_pos pq hle]
          show (t.getD ((Equiv.swap m (m + 1)) pq.1) "",
            t.getD ((Equiv.swap m (m + 1)) pq.2) "") = b
          rw [hspecies, hspecies]
          exact hbond_of_mem pq hpq
        · rcases hforce pq hpq hle with ⟨h1, h2⟩
          rw [hφeq_neg pq hpq hle]
          show (t.getD m "", t.getD (m + 1) "") = b
          rw [← h2, ← h1]
          exact hbond_of_mem pq hpq
    have hinv : ∀ pq : ℕ × ℕ, pq ∈ pairsB → φ (φ pq) = pq := by
      intro pq hpq
      by_cases hle : (Equiv.swap m (m + 1)) pq.1 ≤ (Equiv.swap m (m + 1)) pq.2
      · rw [hφeq_pos pq hle]
        have hle2 : (Equiv.swap m (m + 1))
              ((Equiv.swap m (m + 1)) pq.1, (Equiv.swap m (m + 1)) pq.2).1
            ≤ (Equiv.swap m (m + 1))
              ((Equiv.swap m (m + 1)) pq.1, (Equiv.swap m (m + 1)) pq.2).2 := by
          show (Equiv.swap m (m + 1)) ((Equiv.swap m (m + 1)) pq.1)
            ≤ (Equiv.swap m (m + 1)) ((Equiv.swap m (m + 1)) pq.2)
          rw [Equiv.swap_apply_self, Equiv.swap_apply_self]
          exact le_of_lt (hmem_ordered pq hpq).1
        rw [hφeq_pos _ hle2]
        show ((Equiv.swap m (m + 1)) ((Equiv.swap m (m + 1)) pq.1),
          (Equiv.swap m (m + 1)) ((Equiv.swap m (m + 1)) pq.2)) = pq
        rw [Equiv.swap_apply_self, Equiv.swap_apply_self]
      · rcases hforce pq hpq hle with ⟨h1, h2⟩
        rw [hφeq_neg pq hpq hle]
        have hmm : φ (m, m + 1) = (m, m + 1) := by
          simp only [hφdef]
          rw [Equiv.swap_apply_left, Equiv.swap_apply_right, if_neg (by omega)]
        rw [hmm, ← h2, ← h1]
    have hnodupB : pairsB.Nodup :=
      List.Nodup.filter _ (nodup_listPairs (List.nodup_range t.length))
    have hperm : (pairsB.map φ).Perm pairsB := by
      apply perm_map_self hnodupB hmapsTo
      intro x hx y hy hxy
      rw [← hinv x hx, hxy, hinv y hy]
    have hmap1 : pairsB.map (fun pq => F (v.getD pq.1 0) (v.getD pq.2 0))
        = (pairsB.map φ).map (fun pq => F (u.getD pq.1 0) (u.getD pq.2 0)) := by
      rw [List.map_map]
      apply List.map_congr_left
      intro pq hpq
      show F (v.getD pq.1 0) (v.getD pq.2 0)
        = F (u.getD (φ pq).1 0) (u.getD (φ pq).2 0)
      rw [hgetD, hgetD]
      by_cases hle : (Equiv.swap m (m + 1)) pq.1 ≤ (Equiv.swap m (m + 1)) pq.2
      · rw [hφeq_pos pq hle]
      · rcases hforce pq hpq hle with ⟨h1, h2⟩
        rw [hφeq_neg pq hpq hle, h1, h2, Equiv.swap_apply_left,
          Equiv.swap_apply_right]
        show F (u.getD (m + 1) 0) (u.getD m 0) = F (u.getD m 0) (u.getD (m + 1) 0)
        exact hsym (u.getD (m + 1) 0) (u.getD m 0)
          (getD_mem_of_lt hm 0) (getD_mem_of_lt (by omega) 0)
    rw [hmap1]
    exact hperm.map (fun pq => F (u.getD pq.1 0) (u.getD pq.2 0))

/-! ## A sorted term is the concatenation of its constant-symbol runs -/

theorem count_flatten_blocks (t : List String) (a : String) :
    ∀ ds : List String, ds.Nodup →
      ((ds.map (fun e => List.replicate (t.count e) e)).flatten).count a
        = if a ∈ ds then t.count a else 0 := by
  intro ds
  induction ds with
  | nil => simp
  | cons e ds ih =>
    intro hnd
    rw [List.nodup_cons] at hnd
    rw [List.map_cons, List.flatten_cons, List.count_append, ih hnd.2]
    by_cases hae : a = e
    · subst hae
      rw [List.count_replicate_self, if_neg hnd.1,
        if_pos (List.mem_cons_self a ds), Nat.add_zero]
    · rw [List.count_replicate, if_neg (by simpa using fun h => hae h.symm)]
      by_cases had : a ∈ ds
      · rw [if_pos had, if_pos (List.mem_cons_of_mem e had), Nat.zero_add]
      · rw [if_neg had, if_neg (by simp [hae, had])]

theorem sorted_eq_flatten_replicate {t : List String} (h : t.Sorted (· ≤ ·)) :
    (t.dedup.map (fun e => List.replicate (t.count e) e)).flatten = t := by
  have hperm : ((t.dedup.map (fun e => List.replicate (t.count e) e)).flatten).Perm t := by
    rw [List.perm_iff_count]
    intro a
    rw [count_flatten_blocks t a t.dedup (List.nodup_dedup t)]
    by_cases ha : a ∈ t
    · rw [if_pos (List.mem_dedup.mpr ha)]
    · rw [if_neg (fun hd => ha (List.mem_dedup.mp hd)),
        List.count_eq_zero_of_not_mem ha]
  have hsorted : ((t.dedup.map
      (fun e => List.replicate (t.count e) e)).flatten).Sorted (· ≤ ·) := by
    rw [List.Sorted, List.pairwise_flatten]
    constructor
    · intro l hl
      rcases List.mem_map.mp hl with ⟨e, _, rfl⟩
      exact List.pairwise_replicate.mpr (Or.inr (le_refl e))
    · have hd : t.dedup.Pairwise (· ≤ ·) :=
        List.Pairwise.sublist (List.dedup_sublist t) h
      refine List.Pairwise.map _ ?_ hd
      intro e₁ e₂ h12 x hx y hy
      rw [List.eq_of_mem_replicate hx, List.eq_of_mem_replicate hy]
      exact h12
  exact List.eq_of_perm_of_sorted hperm hsorted h

theorem flatten_getD_prefix {γ : Type _} (us : List (List γ)) :
    ∀ iB : ℕ, iB < us.length → ∀ o, o < (us.getD iB []).length → ∀ d : γ,
      us.flatten.getD (((us.take iB).map List.length).sum + o) d
        = (us.getD iB []).getD o d := by
  induction us with
  | nil =>
    intro iB h
    simp at h
  | cons b us ih =>
    intro iB hiB o ho d
    cases iB with
    | zero =>
      simp only [List.getD_cons_zero] at ho ⊢
      simp only [List.take_zero, List.map_nil, List.sum_nil, Nat.zero_add]
      rw [List.flatten_cons]
      exact List.getD_append _ _ _ _ ho
    | succ iB =>
      simp only [List.getD_cons_succ] at ho ⊢
      rw [List.flatten_cons, List.take_succ_cons, List.map_cons, List.sum_cons]
      have harith : b.length + ((us.take iB).map List.length).sum + o
          = b.length + (((us.take iB).map List.length).sum + o) := by omega
      rw [harith, List.getD_append_right _ _ _ _ (Nat.le_add_right _ _),
        Nat.add_sub_cancel_left]
      exact ih iB (Nat.lt_of_succ_lt_succ hiB) o ho d

/-- Positions inside one constant-symbol run of a sorted term all carry
the run symbol. -/
theorem sorted_run_constant {t : List String} (h : t.Sorted (· ≤ ·))
    {iB : ℕ} (hiB : iB < t.dedup.length) {o : ℕ}
    (ho : o < t.count (t.dedup.getD iB "")) :
    t.getD (((t.dedup.take iB).map (fun e => t.count e)).sum + o) ""
      = t.dedup.getD iB "" := by
  set us := t.dedup.map (fun e => List.replicate (t.count e) e) with husdef
  have hflat : us.flatten = t := sorted_eq_flatten_replicate h
  have hlen : us.length = t.dedup.length := by
    rw [husdef, List.length_map]
  have hgetD : us.getD iB []
      = List.replicate (t.count (t.dedup.getD iB "")) (t.dedup.getD iB "") := by
    rw [husdef]
    exact getD_map_of_lt hiB "" []
  have htake : (us.take iB).map List.length
      = (t.dedup.take iB).map (fun e => t.count e) := by
    rw [husdef, ← List.map_take, List.map_map]
    apply List.map_congr_left
    intro e he
    simp
  have hmain := flatten_getD_prefix us iB (hlen ▸ hiB) o
    (by rw [hgetD, List.length_replicate]; exact ho) ""
  rw [hflat, htake, hgetD] at hmain
  rw [hmain, List.getD_eq_getElem _ _ (by rw [List.length_replicate]; exact ho)]
  exact List.getElem_replicate _ _

/-! ## Selections split into per-symbol blocks -/

theorem splitByLens_flatten {α : Type _} {lens : List ℕ} {us : List (List α)}
    (h : List.Forall₂ (fun b len => b.length = len) us lens) :
    splitByLens lens us.flatten = us := by
  induction h with
  | nil => rfl
  | @cons b len us lens hbl htail ih =>
    rw [List.flatten_cons, splitByLens]
    congr 1
    · rw [← hbl]
      exact List.take_left b us.flatten
    · rw [← hbl, List.drop_left]
      exact ih

theorem mem_atomIndexOf {species : List String} {e : String} {i : ℕ} :
    i ∈ atomIndexOf species e ↔ i < species.length ∧ species.getD i "" = e := by
  simp [atomIndexOf, List.mem_filter]

theorem atomIndexOf_sorted (species : List String) (e : String) :
    (atomIndexOf species e).Sorted (· < ·) :=
  List.Pairwise.filter _ (List.pairwise_lt_range species.length)

/-- A strictly sorted list that is a subset of a strictly sorted list is
a sublist of it. -/
theorem sublist_of_sorted_subset :
    ∀ l c : List ℕ, c.Sorted (· < ·) → l.Sorted (· < ·) → c ⊆ l →
      c.Sublist l := by
  intro l
  induction l with
  | nil =>
    intro c hc hl hsub
    cases c with
    | nil => exact List.Sublist.refl []
    | cons a c => exact absurd (hsub (List.mem_cons_self a c)) (List.not_mem_nil a)
  | cons x l ih =>
    intro c hc hl hsub
    cases c with
    | nil => exact List.nil_sublist _
    | cons a c =>
      rw [List.sorted_cons] at hc
      by_cases hax : a = x
      · subst hax
        refine List.Sublist.cons₂ a ?_
        apply ih c hc.2 (List.sorted_cons.mp hl).2
        intro y hy
        have hyl : y ∈ a :: l := hsub (List.mem_cons_of_mem a hy)
        rcases List.mem_cons.mp hyl with h | h
        · exact absurd (hc.1 y hy) (by omega)
        · exact h
      · have hal : a ∈ l := by
          rcases List.mem_cons.mp (hsub (List.mem_cons_self a c)) with h | h
          · exact absurd h hax
          · exact h
        have hxa : x < a := (List.sorted_cons.mp hl).1 a hal
        refine List.Sublist.cons x ?_
        apply ih (a :: c) (List.sorted_cons.mpr hc) (List.sorted_cons.mp hl).2
        intro y hy
        rcases List.mem_cons.mp (hsub hy) with h | h
        · exfalso
          rcases List.mem_cons.mp hy with h2 | h2
          · omega
          · have := hc.1 y h2
            omega
        · exact h

theorem mergeSort_leB_of_sorted {β : Type _} [LinearOrder β] {l : List β}
    (h : l.Sorted (· ≤ ·)) : l.mergeSort leB = l :=
  List.eq_of_perm_of_sorted (List.mergeSort_perm l leB) (sorted_mergeSort_leB l) h

/-- Every enumerated k-body term, kept as a symbol list, is sorted. -/
theorem mem_getKbodyTermsAsLists_sorted {species : List String} {kMax : ℕ}
    {t : List String} (h : t ∈ getKbodyTermsAsLists species kMax) :
    t.Sorted (· ≤ ·) := by
  unfold getKbodyTermsAsLists at h
  rw [(List.mergeSort_perm _ _).mem_iff, List.mem_dedup, List.mem_map] at h
  rcases h with ⟨c, _, rfl⟩
  exact sorted_mergeSort_leB c

/-! ## Reaching any blockwise permutation by adjacent transpositions -/

/-- Any permutation of a constant-species segment of the selection is
reachable by adjacent equal-species transpositions. -/
theorem chain_segment (t : List String) {seg seg2 : List ℕ}
    (hperm : seg.Perm seg2) :
    ∀ pre suf : List ℕ,
      (∀ o, o < seg.length → t.getD (pre.length + o) "" = t.getD pre.length "") →
      Relation.ReflTransGen (adjSwap t) (pre ++ seg ++ suf) (pre ++ seg2 ++ suf) := by
  induction hperm with
  | nil =>
    intro pre suf hconst
    exact Relation.ReflTransGen.refl
  | cons x hp ih =>
    rename_i l₁ l₂
    intro pre suf hconst
    have hassoc1 : pre ++ (x :: l₁) ++ suf = (pre ++ [x]) ++ l₁ ++ suf := by simp
    have hassoc2 : pre ++ (x :: l₂) ++ suf = (pre ++ [x]) ++ l₂ ++ suf := by simp
    rw [hassoc1, hassoc2]
    apply ih
    intro o ho
    rw [List.length_append, List.length_singleton]
    have e1 : pre.length + 1 + o = pre.length + (o + 1) := by omega
    rw [e1, hconst (o + 1) (by simp only [List.length_cons]; omega),
      hconst 1 (by simp only [List.length_cons]; omega)]
  | swap x y l =>
    intro pre suf hconst
    apply Relation.ReflTransGen.single
    refine ⟨pre, y, x, l ++ suf, ?_, ?_, ?_⟩
    · simp
    · simp
    · exact (hconst 1 (by simp only [List.length_cons]; omega)).symm
  | trans h₁ h₂ ih₁ ih₂ =>
    intro pre suf hconst
    refine (ih₁ pre suf hconst).trans (ih₂ pre suf ?_)
    intro o ho
    exact hconst o (h₁.length_eq ▸ ho)

/-- Blockwise permutations within constant-symbol runs of the term are
reachable by adjacent equal-species transpositions. -/
theorem chain_blocks (t : List String) :
    ∀ (us vs : List (List ℕ)) (pre : List ℕ),
      List.Forall₂ (fun bu bv => bu.Perm bv) us vs →
      (∀ iB, iB < us.length → ∀ o, o < (us.getD iB []).length →
        t.getD (pre.length + ((us.take iB).map List.length).sum + o) ""
          = t.getD (pre.length + ((us.take iB).map List.length).sum) "") →
      Relation.ReflTransGen (adjSwap t) (pre ++ us.flatten) (pre ++ vs.flatten) := by
  intro us
  induction us with
  | nil =>
    intro vs pre hf hconst
    cases hf
    exact Relation.ReflTransGen.refl
  | cons bu us ih =>
    intro vs pre hf hconst
    cases hf with
    | cons hb hf =>
      rename_i bv vs
      have step1 : Relation.ReflTransGen (adjSwap t)
          (pre ++ (bu ++ us.flatten)) (pre ++ (bv ++ us.flatten)) := by
        rw [← List.append_assoc, ← List.append_assoc]
        apply chain_segment t hb pre us.flatten
        intro o ho
        have h := hconst 0 (by simp only [List.length_cons]; omega) o
          (by simpa using ho)
        simpa using h
      have step2 : Relation.ReflTransGen (adjSwap t)
          (pre ++ (bv ++ us.flatten)) (pre ++ (bv ++ vs.flatten)) := by
        rw [← List.append_assoc, ← List.append_assoc]
        apply ih vs (pre ++ bv) hf
        intro iB hiB o ho
        have hlen : (pre ++ bv).length = pre.length + bu.length := by
          rw [List.length_append, hb.length_eq]
        rw [hlen]
        have h := hconst (iB + 1) (by simp only [List.length_cons]; omega) o
          (by simpa using ho)
        simp only [List.take_succ_cons, List.map_cons, List.sum_cons,
          List.getD_cons_succ] at h
        have e1 : pre.length + bu.length + ((us.take iB).map List.length).sum
            = pre.length + (bu.length + ((us.take iB).map List.length).sum) := by
          omega
        have e2 : pre.length + bu.length + ((us.take iB).map List.length).sum + o
            = pre.length + (bu.length + ((us.take iB).map List.length).sum) + o := by
          omega
        rw [e2, e1]
        exact h
      rw [List.flatten_cons, List.flatten_cons]
      exact step1.trans step2

/-! ## Canonical selections under an atom relabeling -/

/-- The per-symbol block structure of one selection of a term. -/
theorem selection_blocks {species t : List String} {sels : List (List ℕ)}
    (h : selectionsFor species t = some sels) {s : List ℕ} (hs : s ∈ sels) :
    ∃ bs : List (List ℕ),
      s = bs.flatten ∧
      List.Forall₂
        (fun b e => b ∈ combinationsL (t.count e) (atomIndexOf species e))
        bs t.dedup := by
  unfold selectionsFor at h
  split_ifs at h with hcond
  rw [← Option.some.inj h] at hs
  rcases List.mem_map.mp hs with ⟨bs, hbs, hflat⟩
  refine ⟨bs, hflat.symm, ?_⟩
  have hprod := mem_productL.mp hbs
  rw [List.forall₂_map_right_iff] at hprod
  exact hprod

/-- Lengths of the blocks of a selection. -/
theorem selection_blocks_lengths {species t : List String} {bs : List (List ℕ)}
    (hf : List.Forall₂
      (fun b e => b ∈ combinationsL (t.count e) (atomIndexOf species e))
      bs t.dedup) :
    List.Forall₂ (fun b len => b.length = len) bs (blockLens t) := by
  rw [blockLens, List.forall₂_map_right_iff]
  exact hf.imp (fun _ _ hb => length_of_mem_combinationsL hb)

theorem canonSel_eq_blocks {t : List String} {bs : List (List ℕ)} (σ : ℕ → ℕ)
    (hlens : List.Forall₂ (fun b len => b.length = len) bs (blockLens t)) :
    canonSel t σ bs.flatten
      = (bs.map (fun b => (b.map σ).mergeSort leB)).flatten := by
  rw [canonSel, splitByLens_flatten hlens]

/-- Applying an injective symbol-preserving relabeling inside one block
and re-sorting gives another combination of the same symbol. -/
theorem block_map_mergeSort_mem {species : List String} {e : String} {n : ℕ}
    {b : List ℕ} (hb : b ∈ combinationsL n (atomIndexOf species e))
    {σ : ℕ → ℕ} (hσinj : Function.Injective σ)
    (hσatom : ∀ i ∈ atomIndexOf species e, σ i ∈ atomIndexOf species e) :
    (b.map σ).mergeSort leB ∈ combinationsL n (atomIndexOf species e) := by
  rcases mem_combinationsL.mp hb with ⟨hsub, hlen⟩
  have hbsorted : b.Sorted (· < ·) :=
    List.Pairwise.sublist hsub (atomIndexOf_sorted species e)
  have hbnodup : b.Nodup := hbsorted.imp (fun h => Nat.ne_of_lt h)
  have hmapnodup : (b.map σ).Nodup := hbnodup.map hσinj
  have hmsnodup : ((b.map σ).mergeSort leB).Nodup :=
    (List.mergeSort_perm _ leB).nodup_iff.mpr hmapnodup
  have hstrict : ((b.map σ).mergeSort leB).Sorted (· < ·) :=
    (sorted_mergeSort_leB _).lt_of_le hmsnodup
  have hsubset : (b.map σ).mergeSort leB ⊆ atomIndexOf species e := by
    intro i hi
    have hi2 : i ∈ b.map σ := (List.mergeSort_perm _ leB).mem_iff.mp hi
    rcases List.mem_map.mp hi2 with ⟨j, hj, rfl⟩
    exact hσatom j (hsub.subset hj)
  refine mem_combinationsL.mpr ⟨?_, ?_⟩
  · exact sublist_of_sorted_subset _ _ hstrict (atomIndexOf_sorted species e)
      hsubset
  · rw [(List.mergeSort_perm _ leB).length_eq, List.length_map, hlen]

/-- The canonical image of a selection is again a selection. -/
theorem canonSel_mem_sels {species t : List String} {sels : List (List ℕ)}
    (h : selectionsFor species t = some sels) {s : List ℕ} (hs : s ∈ sels)
    {σ : ℕ → ℕ} (hσinj : Function.Injective σ)
    (hσatom : ∀ e : String, ∀ i ∈ atomIndexOf species e,
      σ i ∈ atomIndexOf species e) :
    canonSel t σ s ∈ sels := by
  rcases selection_blocks h hs with ⟨bs, rfl, hf⟩
  rw [canonSel_eq_blocks σ (selection_blocks_lengths hf)]
  unfold selectionsFor at h
  split_ifs at h with hcond
  rw [← Option.some.inj h]
  refine List.mem_map.mpr
    ⟨bs.map (fun b => (b.map σ).mergeSort leB), ?_, rfl⟩
  refine mem_productL.mpr ?_
  rw [List.forall₂_map_right_iff, List.forall₂_map_left_iff]
  exact hf.imp (fun _ e hb => block_map_mergeSort_mem hb hσinj (hσatom e))

/-- Double application of an involutive relabeling inside one block. -/
theorem block_double_canon {species : List String} {e : String} {n : ℕ}
    {b : List ℕ} (hb : b ∈ combinationsL n (atomIndexOf species e))
    {σ : ℕ → ℕ} (hσinv : ∀ i, σ (σ i) = i) :
    (((b.map σ).mergeSort leB).map σ).mergeSort leB = b := by
  have hbsorted : b.Sorted (· ≤ ·) :=
    (List.Pairwise.sublist (sublist_of_mem_combinationsL hb)
      (atomIndexOf_sorted species e)).imp (fun h => le_of_lt h)
  have hperm : (((b.map σ).mergeSort leB).map σ).Perm b := by
    refine ((List.mergeSort_perm (b.map σ) leB).map σ).trans ?_
    rw [List.map_map]
    have h1 : b.map (σ ∘ σ) = b.map id :=
      List.map_congr_left (fun x _ => hσinv x)
    rw [h1, List.map_id]
  calc (((b.map σ).mergeSort leB).map σ).mergeSort leB
      = b.mergeSort leB := mergeSort_leB_eq_of_perm hperm
    _ = b := mergeSort_leB_of_sorted hbsorted

/-- The canonical-selection map is an involution on selections. -/
theorem canonSel_involutive {species t : List String} {sels : List (List ℕ)}
    (h : selectionsFor species t = some sels) {s : List ℕ} (hs : s ∈ sels)
    {σ : ℕ → ℕ} (hσinj : Function.Injective σ) (hσinv : ∀ i, σ (σ i) = i)
    (hσatom : ∀ e : String, ∀ i ∈ atomIndexOf species e,
      σ i ∈ atomIndexOf species e) :
    canonSel t σ (canonSel t σ s) = s := by
  rcases selection_blocks h hs with ⟨bs, rfl, hf⟩
  have hlens := selection_blocks_lengths hf
  rw [canonSel_eq_blocks σ hlens]
  have hf2 : List.Forall₂
      (fun b e => b ∈ combinationsL (t.count e) (atomIndexOf species e))
      (bs.map (fun b => (b.map σ).mergeSort leB)) t.dedup := by
    rw [List.forall₂_map_left_iff]
    exact hf.imp (fun _ e hb => block_map_mergeSort_mem hb hσinj (hσatom e))
  rw [canonSel_eq_blocks σ (selection_blocks_lengths hf2), List.map_map]
  congr 1
  have hgen : ∀ {bs' : List (List ℕ)} {ds : List String},
      List.Forall₂
        (fun b e => b ∈ combinationsL (t.count e) (atomIndexOf species e))
        bs' ds →
      bs'.map (fun b => (((b.map σ).mergeSort leB).map σ).mergeSort leB)
        = bs' := by
    intro bs' ds hf'
    induction hf' with
    | nil => rfl
    | cons hb htail ih =>
      rw [List.map_cons, block_double_canon hb hσinv, ih]
  exact hgen hf

/-! ## Selections are duplicate-free, so the canonical map permutes them -/

theorem combinationsL_nodup {α : Type _} :
    ∀ l : List α, l.Nodup → ∀ n, (combinationsL n l).Nodup := by
  intro l
  induction l with
  | nil =>
    intro _ n
    cases n with
    | zero => simp [combinationsL]
    | succ n => simp [combinationsL]
  | cons x xs ih =>
    intro hl n
    rw [List.nodup_cons] at hl
    cases n with
    | zero => simp [combinationsL]
    | succ n =>
      show ((combinationsL n xs).map (x :: ·) ++ combinationsL (n + 1) xs).Nodup
      refine List.Nodup.append ?_ (ih hl.2 (n + 1)) ?_
      · exact (ih hl.2 n).map (fun a b hab => by injection hab)
      · intro c hc₁ hc₂
        rcases List.mem_map.mp hc₁ with ⟨c2, hc2, rfl⟩
        have hsub := sublist_of_mem_combinationsL hc₂
        exact hl.1 (hsub.subset (List.mem_cons_self x c2))

theorem flatMap_cons_nodup {α : Type _} {P : List (List α)} (hP : P.Nodup) :
    ∀ l : List α, l.Nodup → (l.flatMap (fun x => P.map (x :: ·))).Nodup := by
  intro l
  induction l with
  | nil =>
    intro _
    simp
  | cons x xs ih =>
    intro hl
    rw [List.nodup_cons] at hl
    rw [List.flatMap_cons]
    refine List.Nodup.append (hP.map (fun a b hab => by injection hab))
      (ih hl.2) ?_
    intro c hc₁ hc₂
    rcases List.mem_map.mp hc₁ with ⟨c2, hc2, rfl⟩
    rcases List.mem_flatMap.mp hc₂ with ⟨y, hy, hcy⟩
    rcases List.mem_map.mp hcy with ⟨c3, hc3, heq⟩
    have hyx : y = x := by injection heq
    exact hl.1 (hyx ▸ hy)

theorem productL_nodup {α : Type _} :
    ∀ ls : List (List α), (∀ l ∈ ls, l.Nodup) → (productL ls).Nodup := by
  intro ls
  induction ls with
  | nil =>
    intro _
    simp [productL]
  | cons l ls ih =>
    intro h
    show (l.flatMap (fun x => (productL ls).map (x :: ·))).Nodup
    exact flatMap_cons_nodup
      (ih (fun l2 hl2 => h l2 (List.mem_cons_of_mem l hl2)))
      l (h l (List.mem_cons_self l ls))

theorem flatten_inj_of_lengths {α : Type _} {bs bs2 : List (List α)}
    {lens : List ℕ}
    (h1 : List.Forall₂ (fun b len => b.length = len) bs lens)
    (h2 : List.Forall₂ (fun b len => b.length = len) bs2 lens)
    (hflat : bs.flatten = bs2.flatten) : bs = bs2 := by
  rw [← splitByLens_flatten h1, ← splitByLens_flatten h2, hflat]

theorem selectionsFor_nodup {species t : List String} {sels : List (List ℕ)}
    (h : selectionsFor species t = some sels) : sels.Nodup := by
  have hstruct := h
  unfold selectionsFor at h
  split_ifs at h with hcond
  rw [← Option.some.inj h]
  have hprodnodup : (productL (t.dedup.map
      (fun e => combinationsL (t.count e) (atomIndexOf species e)))).Nodup := by
    apply productL_nodup
    intro l hl
    rcases List.mem_map.mp hl with ⟨e, _, rfl⟩
    apply combinationsL_nodup
    exact (atomIndexOf_sorted species e).imp (fun hlt => Nat.ne_of_lt hlt)
  refine hprodnodup.map_on ?_
  intro bs hbs bs2 hbs2 hflat
  have hl1 : List.Forall₂ (fun b len => b.length = len) bs (blockLens t) := by
    apply selection_blocks_lengths
    have hm := mem_productL.mp hbs
    rw [List.forall₂_map_right_iff] at hm
    exact hm
  have hl2 : List.Forall₂ (fun b len => b.length = len) bs2 (blockLens t) := by
    apply selection_blocks_lengths
    have hm := mem_productL.mp hbs2
    rw [List.forall₂_map_right_iff] at hm
    exact hm
  exact flatten_inj_of_lengths hl1 hl2 hflat

/-- The canonical-selection map permutes the selection list. -/
theorem canonSel_map_perm {species t : List String} {sels : List (List ℕ)}
    (h : selectionsFor species t = some sels) {σ : ℕ → ℕ}
    (hσinj : Function.Injective σ) (hσinv : ∀ i, σ (σ i) = i)
    (hσatom : ∀ e : String, ∀ i ∈ atomIndexOf species e,
      σ i ∈ atomIndexOf species e) :
    (sels.map (canonSel t σ)).Perm sels := by
  apply perm_map_self (selectionsFor_nodup h)
  · intro s hs
    exact canonSel_mem_sels h hs hσinj hσatom
  · intro s hs s2 hs2 heq
    have hcc := congrArg (canonSel t σ) heq
    rw [canonSel_involutive h hs hσinj hσinv hσatom,
      canonSel_involutive h hs2 hσinj hσinv hσatom] at hcc
    exact hcc

theorem forall₂_getD {α γ : Type _} {R : α → γ → Prop} {l₁ : List α}
    {l₂ : List γ} (h : List.Forall₂ R l₁ l₂) (d₁ : α) (d₂ : γ) :
    ∀ {i : ℕ}, i < l₁.length → R (l₁.getD i d₁) (l₂.getD i d₂) := by
  induction h with
  | nil =>
    intro i hi
    simp at hi
  | cons hr htail ih =>
    intro i hi
    cases i with
    | zero => simpa using hr
    | succ i =>
      simp only [List.getD_cons_succ]
      exact ih (Nat.lt_of_succ_lt_succ (by simpa using hi))

/-- From the σ-image of a selection to its canonical form, by adjacent
equal-species transpositions of the sorted term pattern. -/
theorem chain_map_to_canonSel {species t : List String} {sels : List (List ℕ)}
    (hterm : t.Sorted (· ≤ ·))
    (h : selectionsFor species t = some sels) {s : List ℕ} (hs : s ∈ sels)
    (σ : ℕ → ℕ) :
    Relation.ReflTransGen (adjSwap t) (s.map σ) (canonSel t σ s) := by
  rcases selection_blocks h hs with ⟨bs, rfl, hf⟩
  have hlens := selection_blocks_lengths hf
  rw [canonSel_eq_blocks σ hlens]
  have hbslen : bs.length = t.dedup.length := hf.length_eq
  have hblen : ∀ iB, iB < bs.length →
      (bs.getD iB []).length = t.count (t.dedup.getD iB "") :=
    fun iB hiB => length_of_mem_combinationsL (forall₂_getD hf [] "" hiB)
  have htakesum : ∀ iB, iB ≤ bs.length →
      (((bs.map (fun b => b.map σ)).take iB).map List.length).sum
        = ((t.dedup.take iB).map (fun e => t.count e)).sum := by
    intro iB hiB
    congr 1
    apply List.ext_getElem
    · simp only [List.length_map, List.length_take]
      rw [hbslen]
    · intro i h₁ h₂
      simp only [List.getElem_map, List.getElem_take]
      rw [List.length_map]
      have hib : i < bs.length := by
        simp only [List.length_map, List.length_take] at h₁
        omega
      have hkey := hblen i hib
      rw [List.getD_eq_getElem _ _ hib,
        List.getD_eq_getElem _ _ (hbslen ▸ hib)] at hkey
      exact hkey
  have hforall : List.Forall₂ (fun bu bv => bu.Perm bv)
      (bs.map (fun b => b.map σ))
      (bs.map (fun b => (b.map σ).mergeSort leB)) := by
    rw [List.forall₂_map_left_iff, List.forall₂_map_right_iff,
      List.forall₂_same]
    intro b _
    exact (List.mergeSort_perm (b.map σ) leB).symm
  have hconst : ∀ iB, iB < (bs.map (fun b => b.map σ)).length →
      ∀ o, o < ((bs.map (fun b => b.map σ)).getD iB []).length →
      t.getD (([] : List ℕ).length
          + (((bs.map (fun b => b.map σ)).take iB).map List.length).sum + o) ""
        = t.getD (([] : List ℕ).length
          + (((bs.map (fun b => b.map σ)).take iB).map List.length).sum) "" := by
    intro iB hiB o ho
    simp only [List.length_nil, Nat.zero_add]
    have hiB2 : iB < bs.length := by simpa using hiB
    have hiBd : iB < t.dedup.length := hbslen ▸ hiB2
    have ho2 : o < t.count (t.dedup.getD iB "") := by
      have hgd : (bs.map (fun b => b.map σ)).getD iB []
          = (bs.getD iB []).map σ := getD_map_of_lt hiB2 [] []
      rw [hgd, List.length_map, hblen iB hiB2] at ho
      exact ho
    rw [htakesum iB (le_of_lt hiB2)]
    have h1 := sorted_run_constant hterm hiBd ho2
    have h0 := sorted_run_constant hterm hiBd
      (show 0 < t.count (t.dedup.getD iB "") by omega)
    rw [Nat.add_zero] at h0
    rw [h1, h0]
  have hchain := chain_blocks t (bs.map (fun b => b.map σ))
    (bs.map (fun b => (b.map σ).mergeSort leB)) [] hforall hconst
  simp only [List.nil_append] at hchain
  rw [List.map_flatten]
  exact hchain

/-! ## Row invariance along a chain, and the per-term block permutation -/

theorem chain_length_mem {t : List String} {u v : List ℕ}
    (hchain : Relation.ReflTransGen (adjSwap t) u v) :
    v.length = u.length ∧ ∀ a : ℕ, a ∈ v ↔ a ∈ u := by
  induction hchain with
  | refl => exact ⟨rfl, fun a => Iff.rfl⟩
  | tail hab hbc ih =>
    rcases adjSwap_spec hbc with ⟨m, _, hlen, _, _, hmem⟩
    exact ⟨hlen.trans ih.1, fun a => (hmem a).trans (ih.2 a)⟩

/-- The conditionally sorted feature row is invariant along any chain of
adjacent equal-species transpositions. -/
theorem applyGroups_rowOf_chain {β : Type _} [LinearOrder β] (dflt : β)
    (F : ℕ → ℕ → β) {t : List String} {u v : List ℕ}
    (hchain : Relation.ReflTransGen (adjSwap t) u v)
    (hlen : u.length = t.length)
    (hsym : ∀ a b : ℕ, a ∈ u → b ∈ u → F a b = F b a) :
    applyGroups dflt (condSortGroups t) (rowOf F v)
      = applyGroups dflt (condSortGroups t) (rowOf F u) := by
  induction hchain with
  | refl => rfl
  | tail hab hbc ih =>
    have hbprop := chain_length_mem hab
    have hblen := hbprop.1.trans hlen
    have hbsym : ∀ a a2 : ℕ, a ∈ _ → a2 ∈ _ → F a a2 = F a2 a :=
      fun a a2 ha ha2 => hsym a a2 ((hbprop.2 a).mp ha) ((hbprop.2 a2).mp ha2)
    rw [applyGroups_rowOf_adjSwap dflt F hblen hbsym hbc]
    exact ih

theorem swap_lt {p q x n : ℕ} (hp : p < n) (hq : q < n) (hx : x < n) :
    (Equiv.swap p q) x < n := by
  rw [Equiv.swap_apply_def]
  split_ifs <;> omega

theorem swap_mem_atomIndexOf {species : List String} {p q : ℕ}
    (hp : p < species.length) (hq : q < species.length)
    (hpq : species.getD p "" = species.getD q "") (e : String) :
    ∀ i ∈ atomIndexOf species e, (Equiv.swap p q) i ∈ atomIndexOf species e := by
  intro i hi
  rw [mem_atomIndexOf] at hi ⊢
  rw [Equiv.swap_apply_def]
  by_cases h1 : i = p
  · rw [if_pos h1]
    exact ⟨hq, by rw [← hpq, ← h1]; exact hi.2⟩
  · rw [if_neg h1]
    by_cases h2 : i = q
    · rw [if_pos h2]
      exact ⟨hp, by rw [hpq, ← h2]; exact hi.2⟩
    · rw [if_neg h2]
      exact hi

theorem selection_mem_lt {species t : List String} {sels : List (List ℕ)}
    (h : selectionsFor species t = some sels) {s : List ℕ} (hs : s ∈ sels) :
    ∀ a ∈ s, a < species.length := by
  rcases selection_blocks h hs with ⟨bs, rfl, hf⟩
  intro a ha
  rcases List.mem_flatten.mp ha with ⟨b, hb, hab⟩
  rcases List.mem_iff_getElem.mp hb with ⟨i, hi, hbi⟩
  have hmem := forall₂_getD hf [] "" (i := i) hi
  rw [List.getD_eq_getElem _ _ hi, hbi] at hmem
  have hsubl := sublist_of_mem_combinationsL hmem
  exact (mem_atomIndexOf.mp (hsubl.subset hab)).1

theorem forall₂_eq_map {α γ : Type _} {f : α → γ} {l₁ : List α} {l₂ : List γ}
    (h : List.Forall₂ (fun a c => f a = c) l₁ l₂) : l₁.map f = l₂ := by
  induction h with
  | nil => rfl
  | cons hr htail ih => rw [List.map_cons, hr, ih]

theorem selection_length {species t : List String} {sels : List (List ℕ)}
    (h : selectionsFor species t = some sels) {s : List ℕ} (hs : s ∈ sels) :
    s.length = t.length := by
  rcases selection_blocks h hs with ⟨bs, rfl, hf⟩
  have hlens := selection_blocks_lengths hf
  rw [List.length_flatten, forall₂_eq_map hlens, blockLens]
  exact List.sum_map_count_dedup_eq_length t

theorem euclid_comm (a b : ℝ × ℝ × ℝ) : euclid a b = euclid b a := by
  unfold euclid
  congr 1
  ring

/-- The flattened normalized distance is symmetric in the two real-atom
indices of the pair. -/
theorem normDists_symm {r : String → ℝ} {species : List String}
    {coords : ℕ → ℝ × ℝ × ℝ} {order : ℕ} {a b : ℕ}
    (ha : a < species.length) (hb : b < species.length) :
    normDists r species coords order (a * species.length + b)
      = normDists r species coords order (b * species.length + a) := by
  unfold normDists
  rw [flatIdx_div hb, flatIdx_mod hb, flatIdx_div ha, flatIdx_mod ha]
  have hdist : distWithGhosts coords species.length (species.count GHOST) a b
      = distWithGhosts coords species.length (species.count GHOST) b a := by
    unfold distWithGhosts
    by_cases hc : 0 < species.count GHOST ∧
        (species.length - species.count GHOST ≤ a ∨
          species.length - species.count GHOST ≤ b)
    · rw [if_pos hc, if_pos ⟨hc.1, hc.2.symm⟩]
    · rw [if_neg hc, if_neg (fun hc2 => hc ⟨hc2.1, hc2.2.symm⟩)]
      rw [euclid_comm]
  rw [hdist]
  unfold pyykkoBond
  rw [add_comm (r (species.getD a "")) (r (species.getD b ""))]

/-- Swapping two same-species atom coordinates equals relabeling the two
pair indices, given that ghosts occupy exactly the trailing positions. -/
theorem normDists_swap_equivariant {r : String → ℝ} {species : List String}
    {coords : ℕ → ℝ × ℝ × ℝ} {order : ℕ} {p q : ℕ}
    (hp : p < species.length) (hq : q < species.length)
    (hpq : species.getD p "" = species.getD q "")
    (hg : ∀ x, x < species.length →
      (species.getD x "" = GHOST ↔
        species.length - species.count GHOST ≤ x))
    {a b : ℕ} (ha : a < species.length) (hb : b < species.length) :
    normDists r species (coords ∘ (Equiv.swap p q)) order
        (a * species.length + b)
      = normDists r species coords order
        ((Equiv.swap p q) a * species.length + (Equiv.swap p q) b) := by
  have hspeciesσ : ∀ x : ℕ,
      species.getD ((Equiv.swap p q) x) "" = species.getD x "" := by
    intro x
    rw [Equiv.swap_apply_def]
    by_cases h1 : x = p
    · rw [if_pos h1, h1]
      exact hpq.symm
    · rw [if_neg h1]
      by_cases h2 : x = q
      · rw [if_pos h2, h2]
        exact hpq
      · rw [if_neg h2]
  have hghost : ∀ x : ℕ, x < species.length →
      (species.length - species.count GHOST ≤ (Equiv.swap p q) x
        ↔ species.length - species.count GHOST ≤ x) := by
    intro x hx
    rw [← hg ((Equiv.swap p q) x) (swap_lt hp hq hx), hspeciesσ x, hg x hx]
  unfold normDists
  rw [flatIdx_div hb, flatIdx_mod hb, flatIdx_div (swap_lt hp hq hb),
    flatIdx_mod (swap_lt hp hq hb)]
  have hdist : distWithGhosts (coords ∘ (Equiv.swap p q)) species.length
      (species.count GHOST) a b
      = distWithGhosts coords species.length (species.count GHOST)
        ((Equiv.swap p q) a) ((Equiv.swap p q) b) := by
    unfold distWithGhosts
    have hcond : (0 < species.count GHOST ∧
        (species.length - species.count GHOST ≤ a ∨
          species.length - species.count GHOST ≤ b))
        ↔ (0 < species.count GHOST ∧
        (species.length - species.count GHOST ≤ (Equiv.swap p q) a ∨
          species.length - species.count GHOST ≤ (Equiv.swap p q) b)) := by
      rw [hghost a ha, hghost b hb]
    by_cases hc : 0 < species.count GHOST ∧
        (species.length - species.count GHOST ≤ a ∨
          species.length - species.count GHOST ≤ b)
    · rw [if_pos hc, if_pos (hcond.mp hc)]
    · rw [if_neg hc, if_neg (fun h2 => hc (hcond.mpr h2))]
      rfl
  rw [hdist]
  unfold pyykkoBond
  rw [hspeciesσ a, hspeciesσ b]

/-- The feature row of a selection under swapped coordinates is the
abstract row of the relabeled selection. -/
theorem selRow_swap_eq_rowOf_map {r : String → ℝ} {species : List String}
    {coords : ℕ → ℝ × ℝ × ℝ} {order : ℕ} {p q : ℕ}
    (hp : p < species.length) (hq : q < species.length)
    (hpq : species.getD p "" = species.getD q "")
    (hg : ∀ x, x < species.length →
      (species.getD x "" = GHOST ↔
        species.length - species.count GHOST ≤ x))
    {s : List ℕ} (hsb : ∀ a ∈ s, a < species.length) :
    selRow (normDists r species (coords ∘ (Equiv.swap p q)) order)
        species.length s
      = rowOf (fun a b => normDists r species coords order
          (a * species.length + b)) (s.map (Equiv.swap p q)) := by
  show rowOf (fun a b => normDists r species (coords ∘ (Equiv.swap p q)) order
      (a * species.length + b)) s = _
  unfold rowOf
  rw [listPairs_map, List.map_map]
  apply List.map_congr_left
  intro ab hab
  have hmem := mem_of_mem_listPairs hab
  show normDists r species (coords ∘ (Equiv.swap p q)) order
      (ab.1 * species.length + ab.2) = _
  rw [normDists_swap_equivariant hp hq hpq hg (hsb ab.1 hmem.1)
    (hsb ab.2 hmem.2)]
  rfl

theorem derivedBlock_some {species : List String} {nd : ℕ → EReal}
    {t : List String} {sels : List (List ℕ)}
    (h : selectionsFor species t = some sels) :
    derivedBlock species nd t
      = sels.map (fun s => applyGroups 0 (condSortGroups t)
          (selRow nd species.length s)) := by
  unfold derivedBlock
  rw [h]

/-- Per-term core of the amended C3: swapping the coordinates of two
same-species atoms permutes the rows of each term block. -/
theorem derivedBlock_swap_perm {r : String → ℝ} {species : List String}
    {coords : ℕ → ℝ × ℝ × ℝ} {order : ℕ} {p q : ℕ} {t : List String}
    (hterm : t.Sorted (· ≤ ·))
    (hp : p < species.length) (hq : q < species.length)
    (hpq : species.getD p "" = species.getD q "")
    (hg : ∀ x, x < species.length →
      (species.getD x "" = GHOST ↔
        species.length - species.count GHOST ≤ x)) :
    (derivedBlock species
      (normDists r species (coords ∘ (Equiv.swap p q)) order) t).Perm
      (derivedBlock species (normDists r species coords order) t) := by
  cases hsel : selectionsFor species t with
  | none =>
    unfold derivedBlock
    rw [hsel]
  | some sels =>
    rw [derivedBlock_some hsel, derivedBlock_some hsel]
    have hrow : ∀ s ∈ sels,
        applyGroups 0 (condSortGroups t)
          (selRow (normDists r species (coords ∘ (Equiv.swap p q)) order)
            species.length s)
          = applyGroups 0 (condSortGroups t)
            (selRow (normDists r species coords order) species.length
              (canonSel t (Equiv.swap p q) s)) := by
      intro s hs
      have hsb := selection_mem_lt hsel hs
      rw [selRow_swap_eq_rowOf_map hp hq hpq hg hsb]
      have hchain := chain_map_to_canonSel hterm hsel hs (Equiv.swap p q)
      have hmaplen : (s.map (Equiv.swap p q)).length = t.length := by
        rw [List.length_map]
        exact selection_length hsel hs
      have hmapb : ∀ a ∈ s.map (Equiv.swap p q), a < species.length := by
        intro a ha
        rcases List.mem_map.mp ha with ⟨x, hx, rfl⟩
        exact swap_lt hp hq (hsb x hx)
      have hsym : ∀ a b : ℕ, a ∈ s.map (Equiv.swap p q) →
          b ∈ s.map (Equiv.swap p q) →
          normDists r species coords order (a * species.length + b)
            = normDists r species coords order (b * species.length + a) :=
        fun a b ha hb => normDists_symm (hmapb a ha) (hmapb b hb)
      have hinv := applyGroups_rowOf_chain 0
        (fun a b => normDists r species coords order
          (a * species.length + b)) hchain hmaplen hsym
      show applyGroups 0 (condSortGroups t)
          (rowOf (fun a b => normDists r species coords order
            (a * species.length + b)) (s.map (Equiv.swap p q))) = _
      rw [← hinv]
      rfl
    have hφsels := canonSel_map_perm hsel (Equiv.swap p q).injective
      (fun i => Equiv.swap_apply_self p q i)
      (fun e => swap_mem_atomIndexOf hp hq hpq e)
    have hmapeq : sels.map (fun s => applyGroups 0 (condSortGroups t)
        (selRow (normDists r species (coords ∘ (Equiv.swap p q)) order)
          species.length s))
        = (sels.map (canonSel t (Equiv.swap p q))).map
          (fun s => applyGroups 0 (condSortGroups t)
            (selRow (normDists r species coords order) species.length s)) := by
      rw [List.map_map]
      exact List.map_congr_left hrow
    rw [hmapeq]
    exact hφsels.map _

/-- C3 (amended): with ghost placeholders occupying exactly the trailing
positions of the species list, swapping the coordinates of two atoms of
the same species yields, for every k-body term, a block of feature rows
that is a permutation of the original term block — the tensor is
preserved up to reordering rows within term blocks, not bitwise. -/
theorem C3_permutation_row_invariance (r : String → ℝ) (species : List String)
    (kMax order : ℕ) (coords : ℕ → ℝ × ℝ × ℝ) (p q : ℕ)
    (hp : p < species.length) (hq : q < species.length)
    (hpq : species.getD p "" = species.getD q "")
    (hg : ∀ x, x < species.length →
      (species.getD x "" = GHOST ↔
        species.length - species.count GHOST ≤ x)) :
    List.Forall₂ List.Perm
      (featureBlocks r species kMax (coords ∘ (Equiv.swap p q)) order)
      (featureBlocks r species kMax coords order) := by
  unfold featureBlocks
  rw [List.forall₂_map_left_iff, List.forall₂_map_right_iff, List.forall₂_same]
  intro t ht
  exact derivedBlock_swap_perm (mem_getKbodyTermsAsLists_sorted ht)
    hp hq hpq hg

/-- Evaluation of the `[A, A, B]` scenario feature tensor for arbitrary
coordinates (radius 1/2 everywhere, norm order 1). -/
theorem transform_AAB_eval (c : ℕ → ℝ × ℝ × ℝ) :
    transformFeatures (fun _ => 1 / 2) ["A", "A", "B"] 2 c 1
      = [[((Real.exp (-(euclid (c 0) (c 1))) : ℝ) : EReal)],
         [((Real.exp (-(euclid (c 0) (c 2))) : ℝ) : EReal)],
         [((Real.exp (-(euclid (c 1) (c 2))) : ℝ) : EReal)]] := by
  set S := (["A", "A", "B"] : List String) with hS
  set r : String → ℝ := (fun _ => 1 / 2) with hr
  have hterms : getKbodyTermsAsLists S 2 = [["A", "A"], ["A", "B"]] := by decide
  have hsel1 : selectionsFor S ["A", "A"] = some [[0, 1]] := by decide
  have hsel2 : selectionsFor S ["A", "B"] = some [[0, 2], [1, 2]] := by decide
  have hgp1 : condSortGroups ["A", "A"] = [] := by decide
  have hgp2 : condSortGroups ["A", "B"] = [] := by decide
  have hcount : S.count GHOST = 0 := by decide
  have hlen : S.length = 3 := by decide
  have hbond : ∀ i j : ℕ, pyykkoBond r S i j = 1 := by
    intro i j
    rw [pyykkoBond, hr]
    norm_num
  have hdist : ∀ i j : ℕ, distWithGhosts c 3 0 i j
      = ((euclid (c i) (c j) : ℝ) : EReal) := by
    intro i j
    rw [distWithGhosts, if_neg]
    rintro ⟨h, -⟩
    exact absurd h (by norm_num)
  have key : ∀ a b : ℕ, b < 3 →
      normDists r S c 1 (a * 3 + b)
        = ((Real.exp (-(euclid (c a) (c b))) : ℝ) : EReal) := by
    intro a b hb
    rw [normDists, hbond, hcount, hlen, flatIdx_div hb, flatIdx_mod hb, hdist,
      normalizeDist_coe_one]
  rw [transformFeatures, featureBlocks, hterms]
  simp only [List.map_cons, List.map_nil]
  rw [derivedBlock, derivedBlock, hsel1, hsel2]
  simp only [hgp1, hgp2, applyGroups, List.foldl_nil, List.map_cons,
    List.map_nil]
  simp only [selRow, listPairs, List.map_nil, List.map_cons, List.map_append,
    List.nil_append, hlen]
  rw [key 0 1 (by norm_num), key 0 2 (by norm_num), key 1 2 (by norm_num)]
  simp [List.flatten]

/-- C3 counterexample to the literal claim: in the `[A, A, B]` scenario,
swapping the coordinates of the two `A` atoms permutes the two rows of
the `AB` term block, so the feature tensor is not bitwise identical. -/
theorem C3_counterexample :
    ¬ transformFeatures (fun _ => 1 / 2) ["A", "A", "B"] 2
        ((fun n => if n = 0 then (0, 0, 0) else if n = 1 then (1, 0, 0)
          else (0, 1, 0)) ∘ (Equiv.swap 0 1)) 1
      = transformFeatures (fun _ => 1 / 2) ["A", "A", "B"] 2
        (fun n => if n = 0 then (0, 0, 0) else if n = 1 then (1, 0, 0)
          else (0, 1, 0)) 1 := by
  intro hcontra
  set c : ℕ → ℝ × ℝ × ℝ := (fun n => if n = 0 then (0, 0, 0)
    else if n = 1 then (1, 0, 0) else (0, 1, 0)) with hc
  rw [transform_AAB_eval, transform_AAB_eval] at hcontra
  have h0 : (c ∘ (Equiv.swap 0 1)) 0 = c 1 := by
    show c ((Equiv.swap 0 1) 0) = c 1
    rw [Equiv.swap_apply_left]
  have h1 : (c ∘ (Equiv.swap 0 1)) 1 = c 0 := by
    show c ((Equiv.swap 0 1) 1) = c 0
    rw [Equiv.swap_apply_right]
  have h2c : (c ∘ (Equiv.swap 0 1)) 2 = c 2 := by
    show c ((Equiv.swap 0 1) 2) = c 2
    rw [Equiv.swap_apply_of_ne_of_ne (by norm_num) (by norm_num)]
  rw [h0, h1, h2c] at hcontra
  have hd10 : euclid (c 1) (c 0) = 1 := by
    rw [hc]
    norm_num [euclid]
  have hd12 : euclid (c 1) (c 2) = Real.sqrt 2 := by
    rw [hc]
    norm_num [euclid]
  have hd02 : euclid (c 0) (c 2) = 1 := by
    rw [hc]
    norm_num [euclid]
  rw [hd10, hd12, hd02] at hcontra
  have h2nd := congrArg (fun l => l.getD 1 []) hcontra
  simp only [List.getD_cons_succ, List.getD_cons_zero] at h2nd
  have hval := congrArg (fun l => l.getD 0 (0 : EReal)) h2nd
  simp only [List.getD_cons_zero] at hval
  rw [EReal.coe_eq_coe_iff, Real.exp_eq_exp] at hval
  have hsqrt : Real.sqrt 2 = 1 := by linarith
  have hsq : (Real.sqrt 2) ^ 2 = 2 := Real.sq_sqrt (by norm_num)
  rw [hsqrt] at hsq
  norm_num at hsq

/-- Witness for the amended C3 at the concrete `[A, A, B]` scenario with
the two `A` atoms swapped. -/
theorem C3_witness :
    List.Forall₂ List.Perm
      (featureBlocks (fun _ => 1 / 2) ["A", "A", "B"] 2
        ((fun n => if n = 0 then (0, 0, 0) else if n = 1 then (1, 0, 0)
          else (0, 1, 0)) ∘ (Equiv.swap 0 1)) 1)
      (featureBlocks (fun _ => 1 / 2) ["A", "A", "B"] 2
        (fun n => if n = 0 then (0, 0, 0) else if n = 1 then (1, 0, 0)
          else (0, 1, 0)) 1) :=
  C3_permutation_row_invariance (fun _ => 1 / 2) ["A", "A", "B"] 2 1
    (fun n => if n = 0 then (0, 0, 0) else if n = 1 then (1, 0, 0)
      else (0, 1, 0)) 0 1 (by decide) (by decide) (by decide) (by decide)
